import Mathlib

/-!
Verification of the template-sync engine of the `nexu` scaffolding CLI
(`update` command): tree diff collection, deletion exclusion, manifest
diffing, dependency/script merging, selective application and cleanup
of empty directories.

Modelling conventions (shallow embedding of the TypeScript source):
* A filesystem entry is either a file (content modelled as a `String`;
  the source reads files as UTF-8 strings and only ever compares them
  for equality, and UTF-8 decoding is injective on valid encodings) or
  a directory holding a list of named entries (`readdirSync` order).
* Paths are modelled as lists of components.  `path.join` on values
  produced by `readdirSync` is list append (directory-entry names never
  contain a separator), and `path.sep` is `"/"` (the POSIX separator,
  which the source also hardcodes in its `startsWith(pattern + '/')`
  checks).  A string pattern from the exclusion table is converted to
  components with `splitOn "/"`; `rel.startsWith(pat + "/")` on strings
  is then exactly "the components of `pat` are a proper list-prefix of
  the components of `rel`".
* `fs.existsSync` on a path is modelled by lookup returning `some`;
  a source directory argument that does not exist is `none`.
* The absolute `srcPath`/`destPath` fields of a `FileChange` are the
  template/project roots followed by `relativePath`; they are not
  duplicated in the model record.
-/

namespace Nexu

/-- Entry type of a `FileChange` record: `'add' | 'modify' | 'delete'`. -/
inductive ChangeType where
  | add
  | modify
  | delete
deriving DecidableEq, Repr

mutual

/-- A filesystem entry: a file with its content, or a directory. -/
inductive FSEntry where
  | file (content : String)
  | dir (entries : FSEntries)
deriving DecidableEq, Repr

/-- The named entries of a directory, in `readdirSync` order. -/
inductive FSEntries where
  | nil
  | cons (name : String) (entry : FSEntry) (rest : FSEntries)
deriving DecidableEq, Repr

end

/-- Look up a directory entry by name (first match). -/
def lookupEntries (n : String) : FSEntries → Option FSEntry
  | FSEntries.nil => none
  | FSEntries.cons m e rest => if m = n then some e else lookupEntries n rest

/-- Resolve `dir/name`: `some` iff the parent exists, is a directory and
has an entry called `name` (`fs.existsSync(path.join(dir, name))`). -/
def lookupIn (d : Option FSEntry) (n : String) : Option FSEntry :=
  match d with
  | some (FSEntry.dir es) => lookupEntries n es
  | _ => none

/-- Whether a directory listing contains an entry with the given name. -/
def containsName (n : String) : FSEntries → Bool
  | FSEntries.nil => false
  | FSEntries.cons m _ rest => (m == n) || containsName n rest

/-- `EXCLUDE_FROM_DELETION`: directories/files excluded from deletion
detection, verbatim from the source. -/
def EXCLUDE_FROM_DELETION : List String :=
  ["node_modules", ".git", ".turbo", "dist", "build", ".next", "coverage",
   ".husky/_", ".DS_Store"]

/-- Split a character list at a separator (`String.splitOn` semantics
for a one-character separator, reimplemented on `.data` so that it is
computable inside the kernel). -/
def splitChars (sep : Char) : List Char → List (List Char)
  | [] => [[]]
  | c :: cs =>
    if c = sep then [] :: splitChars sep cs
    else
      match splitChars sep cs with
      | [] => [[c]]
      | g :: gs => (c :: g) :: gs

/-- `pattern.splitOn '/'` for exclusion tokens. -/
def splitOnSlash (s : String) : List String :=
  (splitChars '/' s.data).map (fun g => String.mk g)

/-- `shouldExcludeFromDeletion(name, relativePath)`: the name matches an
exclusion token exactly, or the relative path starts with a token
followed by a separator, or equals a token.  Paths are component lists;
string tokens are split on `"/"`, and `startsWith(pattern + '/')` on
path strings is a proper component-prefix test. -/
def shouldExcludeFromDeletion (name : String) (relativePath : List String) : Bool :=
  EXCLUDE_FROM_DELETION.contains name ||
  EXCLUDE_FROM_DELETION.any (fun pattern =>
    let pat := splitOnSlash pattern
    (pat.isPrefixOf relativePath && pat != relativePath) || relativePath == pat)

/-- `compareFiles(srcPath, destPath)`: false if either side is missing
or is a directory; otherwise content equality. -/
def compareFiles (src dest : Option FSEntry) : Bool :=
  match dest with
  | none => false
  | some destE =>
    match src with
    | none => false
    | some srcE =>
      match srcE, destE with
      | FSEntry.file a, FSEntry.file b => a == b
      | _, _ => false

/-- One detected difference between template and project
(`srcPath`/`destPath` are the roots followed by `relativePath`). -/
structure FileChange where
  type : ChangeType
  relativePath : List String
  category : String
deriving DecidableEq, Repr

mutual

/-- `collectDeletedFiles(destDir, category, basePath)`: every
non-excluded file under a project directory that is absent from the
template becomes a Delete record. -/
def collectDeletedFiles (dest : FSEntry) (category : String) (basePath : List String) :
    List FileChange :=
  match dest with
  | FSEntry.file _ => []
  | FSEntry.dir ds => collectDeletedEntries ds category basePath

/-- Loop body of `collectDeletedFiles` over the directory listing. -/
def collectDeletedEntries (ds : FSEntries) (category : String) (basePath : List String) :
    List FileChange :=
  match ds with
  | FSEntries.nil => []
  | FSEntries.cons n e rest =>
    let relativePath := basePath ++ [n]
    (if shouldExcludeFromDeletion n relativePath then []
     else
       match e with
       | FSEntry.dir _ => collectDeletedFiles e category relativePath
       | FSEntry.file _ => [⟨ChangeType.delete, relativePath, category⟩]) ++
    collectDeletedEntries rest category basePath

end

/-- Deletion-detection loop of `collectFileChanges`: walk the project
directory's entries; skip excluded names/paths and entries that still
exist in the template; recurse into directories via
`collectDeletedFiles`, record files as Delete. -/
def collectDeletions (src : Option FSEntry) (ds : FSEntries) (category : String)
    (basePath : List String) : List FileChange :=
  match ds with
  | FSEntries.nil => []
  | FSEntries.cons n e rest =>
    let relativePath := basePath ++ [n]
    (if shouldExcludeFromDeletion n relativePath then []
     else if (lookupIn src n).isSome then []
     else
       match e with
       | FSEntry.dir _ => collectDeletedFiles e category relativePath
       | FSEntry.file _ => [⟨ChangeType.delete, relativePath, category⟩]) ++
    collectDeletions src rest category basePath

mutual

/-- `collectFileChanges` on an existing source entry: the template-side
walk when the source is a directory, followed by the deletion walk of
the destination. -/
def collectEntryChanges (src : FSEntry) (dest : Option FSEntry) (category : String)
    (basePath : List String) (checkDeleted : Bool) : List FileChange :=
  (match src with
   | FSEntry.dir es => collectFromTemplate es dest category basePath checkDeleted
   | FSEntry.file _ => []) ++
  (if checkDeleted then
     match dest with
     | some (FSEntry.dir ds) => collectDeletions (some src) ds category basePath
     | _ => []
   else [])

/-- Template-side loop of `collectFileChanges`: recurse into
directories; for a file, emit Add when the project path does not exist,
Modify when `compareFiles` fails, nothing when contents agree. -/
def collectFromTemplate (es : FSEntries) (dest : Option FSEntry) (category : String)
    (basePath : List String) (checkDeleted : Bool) : List FileChange :=
  match es with
  | FSEntries.nil => []
  | FSEntries.cons n e rest =>
    let relativePath := basePath ++ [n]
    (match e with
     | FSEntry.dir _ =>
       collectEntryChanges e (lookupIn dest n) category relativePath checkDeleted
     | FSEntry.file _ =>
       if (lookupIn dest n).isSome = false then
         [⟨ChangeType.add, relativePath, category⟩]
       else if compareFiles (some e) (lookupIn dest n) = false then
         [⟨ChangeType.modify, relativePath, category⟩]
       else []) ++
    collectFromTemplate rest dest category basePath checkDeleted

end

/-- `collectFileChanges(srcDir, destDir, category, basePath, checkDeleted)`:
additions/modifications from the template walk, then deletions from the
project walk.  (A `srcDir`/`destDir` that exists but is a file would
make the source throw from `readdirSync`; such mixed inputs are ruled
out by the `conflictFree` hypothesis where theorems depend on it.) -/
def collectFileChanges (src dest : Option FSEntry) (category : String)
    (basePath : List String) (checkDeleted : Bool) : List FileChange :=
  match src with
  | some e => collectEntryChanges e dest category basePath checkDeleted
  | none =>
    if checkDeleted then
      match dest with
      | some (FSEntry.dir ds) => collectDeletions none ds category basePath
      | _ => []
    else []

/-- The deletion half of `collectEntryChanges`/`collectFileChanges`. -/
def deletionPart (src dest : Option FSEntry) (category : String) (base : List String)
    (chk : Bool) : List FileChange :=
  if chk then
    match dest with
    | some (FSEntry.dir ds) => collectDeletions src ds category base
    | _ => []
  else []

/-! Apply phase (`update`'s apply loop and `cleanEmptyDirectories`). -/

/-- Resolve a path (list of components) inside an entry. -/
def entryAt (e : FSEntry) : List String → Option FSEntry
  | [] => some e
  | n :: p =>
    match e with
    | FSEntry.file _ => none
    | FSEntry.dir es => (lookupEntries n es).bind (fun c => entryAt c p)

/-- Resolve a path against an optional root. -/
def entryAtOpt (e : Option FSEntry) (p : List String) : Option FSEntry :=
  e.bind (fun x => entryAt x p)

/-- The content of the file at a path, if a file is there. -/
def fileAt (e : FSEntry) (p : List String) : Option String :=
  match entryAt e p with
  | some (FSEntry.file c) => some c
  | _ => none

/-- `fs.existsSync` on a path below the root. -/
def existsAt (e : FSEntry) (p : List String) : Bool :=
  (entryAt e p).isSome

/-- Whether a directory sits at the path. -/
def isDirAt (e : FSEntry) (p : List String) : Bool :=
  match entryAt e p with
  | some (FSEntry.dir _) => true
  | _ => false

/-- Whether an empty directory (zero entries) sits at the path. -/
def isEmptyDirAt (e : FSEntry) (p : List String) : Bool :=
  match entryAt e p with
  | some (FSEntry.dir FSEntries.nil) => true
  | _ => false

/-- Drop the (first) entry with the given name from a listing. -/
def removeEntries (n : String) : FSEntries → FSEntries
  | FSEntries.nil => FSEntries.nil
  | FSEntries.cons m e rest =>
    if m = n then rest else FSEntries.cons m e (removeEntries n rest)

/-- Replace the entry with the given name, or append it if absent. -/
def setEntry (n : String) (v : FSEntry) : FSEntries → FSEntries
  | FSEntries.nil => FSEntries.cons n v FSEntries.nil
  | FSEntries.cons m e rest =>
    if m = n then FSEntries.cons m v rest else FSEntries.cons m e (setEntry n v rest)

/-- `fs.removeSync(destPath)`: remove whatever sits at the path (a file
or a whole directory subtree); no-op when the path is missing.  The
root itself is never a deletion target in the source. -/
def removeAt (e : FSEntry) : List String → FSEntry
  | [] => e
  | [n] =>
    match e with
    | FSEntry.dir es => FSEntry.dir (removeEntries n es)
    | FSEntry.file c => FSEntry.file c
  | n :: p =>
    match e with
    | FSEntry.dir es =>
      match lookupEntries n es with
      | some child => FSEntry.dir (setEntry n (removeAt child p) es)
      | none => FSEntry.dir es
    | FSEntry.file c => FSEntry.file c

/-- `fs.ensureDirSync(path.dirname(destPath))` followed by
`fs.copySync(srcPath, destPath, { overwrite: true })` for a template
file: create missing intermediate directories and write the file.
`none` models the exceptions the source throws (`ensureDirSync` when an
intermediate component is a file, `copySync` when the destination is a
directory); the source's update run aborts there. -/
def writeAt (e : FSEntry) : List String → String → Option FSEntry
  | [], _ => none
  | [n], content =>
    match e with
    | FSEntry.dir es =>
      match lookupEntries n es with
      | some (FSEntry.dir _) => none
      | _ => some (FSEntry.dir (setEntry n (FSEntry.file content) es))
    | FSEntry.file _ => none
  | n :: p, content =>
    match e with
    | FSEntry.dir es =>
      match lookupEntries n es with
      | some (FSEntry.file _) => none
      | some (FSEntry.dir inner) =>
        (writeAt (FSEntry.dir inner) p content).map
          (fun c => FSEntry.dir (setEntry n c es))
      | none =>
        (writeAt (FSEntry.dir FSEntries.nil) p content).map
          (fun c => FSEntry.dir (setEntry n c es))
    | FSEntry.file _ => none

mutual

/-- `cleanEmptyDirectories(dir)`: recursively clean every child
directory, then drop it if it ended up with zero entries.  The root
directory itself is kept. -/
def cleanEmptyDirectories (e : FSEntry) : FSEntry :=
  match e with
  | FSEntry.file c => FSEntry.file c
  | FSEntry.dir es => FSEntry.dir (cleanEntries es)

/-- Loop of `cleanEmptyDirectories` over a directory listing. -/
def cleanEntries (es : FSEntries) : FSEntries :=
  match es with
  | FSEntries.nil => FSEntries.nil
  | FSEntries.cons n e rest =>
    match e with
    | FSEntry.file c => FSEntries.cons n (FSEntry.file c) (cleanEntries rest)
    | FSEntry.dir inner =>
      match cleanEntries inner with
      | FSEntries.nil => cleanEntries rest
      | FSEntries.cons m e2 r2 =>
        FSEntries.cons n (FSEntry.dir (FSEntries.cons m e2 r2)) (cleanEntries rest)

end

/-- One entry of the change batch as consumed by the apply loop
(`srcContent` is the template file's content that `copySync` copies;
the collector only ever records file-level changes). -/
structure ApplyChange where
  type : ChangeType
  dest : List String
  srcContent : String
  category : String
deriving DecidableEq, Repr

/-- The apply loop of `update`: for every change whose category was
selected, delete the destination if it still exists (counting
deletions) or copy the template file over it.  `none` models the run
aborting on a thrown filesystem error. -/
def applyChanges (root : FSEntry) (changes : List ApplyChange) (selected : List String) :
    Option (FSEntry × Nat) :=
  match changes with
  | [] => some (root, 0)
  | c :: cs =>
    if c.category ∈ selected then
      match c.type with
      | ChangeType.delete =>
        if existsAt root c.dest then
          (applyChanges (removeAt root c.dest) cs selected).map (fun r => (r.1, r.2 + 1))
        else
          applyChanges root cs selected
      | _ =>
        (writeAt root c.dest c.srcContent).bind (fun r => applyChanges r cs selected)
    else
      applyChanges root cs selected

/-- The file-change portion of `update`'s apply phase: run the loop,
then clean empty directories iff at least one deletion happened. -/
def applyPhase (root : FSEntry) (changes : List ApplyChange) (selected : List String) :
    Option FSEntry :=
  (applyChanges root changes selected).map
    (fun r => if r.2 > 0 then cleanEmptyDirectories r.1 else r.1)

/-! Manifest model (`package.json` handling). -/

/-- Property access `obj[k]` (first matching key; a JSON object of
string values is modelled as an insertion-ordered association list). -/
def lookupRec (k : String) : List (String × String) → Option String
  | [] => none
  | kv :: rest => if kv.1 = k then some kv.2 else lookupRec k rest

/-- JS object spread `{...first, ...second}` on string records: keys of
`first` keep their position but take `second`'s value when `second`
also defines them; keys only in `second` are appended in order. -/
def spreadMerge (first second : List (String × String)) : List (String × String) :=
  first.map (fun kv => (kv.1, (lookupRec kv.1 second).getD kv.2)) ++
  second.filter (fun kv => (lookupRec kv.1 first).isNone)

/-- Lexicographic comparison of character lists (the comparison JS's
default `Array.prototype.sort` applies to string keys). -/
def charListLe : List Char → List Char → Bool
  | [], _ => true
  | _ :: _, [] => false
  | a :: as, b :: bs =>
    if a < b then true
    else if b < a then false
    else charListLe as bs

/-- String comparison used by `sort()` on keys. -/
def strLe (a b : String) : Bool :=
  charListLe a.data b.data

/-- Insert a pair in front of the first entry with a `≥` key. -/
def insertSorted (kv : String × String) : List (String × String) → List (String × String)
  | [] => [kv]
  | x :: xs => if strLe kv.1 x.1 then kv :: x :: xs else x :: insertSorted kv xs

/-- `sortObject(obj)`: rebuild the record with keys in ascending
lexicographic order (`Object.keys(obj).sort()` and re-insertion). -/
def sortObject : List (String × String) → List (String × String)
  | [] => []
  | x :: xs => insertSorted x (sortObject xs)

/-- The manifest fields the update command reads and writes.  A `none`
field models the key being absent from the JSON document (JS
`undefined`, which is falsy in the source's guards). -/
structure Manifest where
  dependencies : Option (List (String × String))
  devDependencies : Option (List (String × String))
  scripts : Option (List (String × String))
deriving DecidableEq

/-- Loop body of `collectDependencyChanges` for one template entry
`kv = (pkg, version)`: `!projectPkg[depType]?.[pkg]` (missing *or falsy*,
i.e. the empty string) sends it to `added`; otherwise a differing value
sends `(pkg, from, to)` to `updated`. -/
def diffStep (proj : Option (List (String × String)))
    (acc : List (String × String) × List (String × String × String))
    (kv : String × String) :
    List (String × String) × List (String × String × String) :=
  match proj.bind (fun r => lookupRec kv.1 r) with
  | none => (acc.1 ++ [kv], acc.2)
  | some v =>
    if v = "" then (acc.1 ++ [kv], acc.2)
    else if v ≠ kv.2 then (acc.1, acc.2 ++ [(kv.1, v, kv.2)])
    else acc

/-- Per-group body of `collectDependencyChanges`: walk the template
group's entries with `diffStep`. -/
def diffGroup (tmpl proj : Option (List (String × String))) :
    List (String × String) × List (String × String × String) :=
  match tmpl with
  | none => ([], [])
  | some entries => entries.foldl (diffStep proj) ([], [])

/-- The `added` maps of a `ContentChange`, keyed by field group. -/
structure AddedMaps where
  dependencies : List (String × String)
  devDependencies : List (String × String)
  scripts : List (String × String)
deriving DecidableEq

/-- The `updated` maps of a `ContentChange`: `(name, from, to)`. -/
structure UpdatedMaps where
  dependencies : List (String × String × String)
  devDependencies : List (String × String × String)
  scripts : List (String × String × String)
deriving DecidableEq

/-- `ContentChange` for a `package.json` diff. -/
structure ContentChange where
  added : AddedMaps
  updated : UpdatedMaps
deriving DecidableEq

/-- `collectDependencyChanges(templatePkgPath, projectPkgPath)`: `null`
when either manifest file is missing; otherwise the grouped
added/updated entries for dependencies, devDependencies and scripts
(the deletion-detecting variant also reports updated scripts, with the
same loop shape as the dependency groups). -/
def collectDependencyChanges (templatePkg projectPkg : Option Manifest) :
    Option ContentChange :=
  match templatePkg, projectPkg with
  | some t, some p =>
    let deps := diffGroup t.dependencies p.dependencies
    let devDeps := diffGroup t.devDependencies p.devDependencies
    let scr := diffGroup t.scripts p.scripts
    some ⟨⟨deps.1, devDeps.1, scr.1⟩, ⟨deps.2, devDeps.2, scr.2⟩⟩
  | _, _ => none

/-- The `package.json` write-back of the deletion-detecting `update`
variant: template values win for dependencies, devDependencies *and*
scripts (`{...project, ...template}` for each present template group),
then both dependency maps are sorted alphabetically. -/
def applyDependencyMerge (templatePkg projectPkg : Manifest) : Manifest :=
  let p1 :=
    match templatePkg.devDependencies with
    | some td =>
      { projectPkg with
        devDependencies := some (spreadMerge (projectPkg.devDependencies.getD []) td) }
    | none => projectPkg
  let p2 :=
    match templatePkg.dependencies with
    | some td =>
      { p1 with dependencies := some (spreadMerge (p1.dependencies.getD []) td) }
    | none => p1
  let p3 :=
    match templatePkg.scripts with
    | some ts =>
      { p2 with scripts := some (spreadMerge (p2.scripts.getD []) ts) }
    | none => p2
  let p4 :=
    match p3.dependencies with
    | some d => { p3 with dependencies := some (sortObject d) }
    | none => p3
  match p4.devDependencies with
  | some d => { p4 with devDependencies := some (sortObject d) }
  | none => p4

/-- The `package.json` write-back of the additive `update` variant
(`create-nexu/src/commands/update.ts`): dependencies and
devDependencies merge with template precedence, but scripts merge as
`{...template, ...project}`, so the project's own script commands win
and template scripts only fill gaps. -/
def applyDependencyMergeAdditive (templatePkg projectPkg : Manifest) : Manifest :=
  let p1 :=
    match templatePkg.devDependencies with
    | some td =>
      { projectPkg with
        devDependencies := some (spreadMerge (projectPkg.devDependencies.getD []) td) }
    | none => projectPkg
  let p2 :=
    match templatePkg.dependencies with
    | some td =>
      { p1 with dependencies := some (spreadMerge (p1.dependencies.getD []) td) }
    | none => p1
  let p3 :=
    match templatePkg.scripts with
    | some ts =>
      { p2 with scripts := some (spreadMerge ts (p2.scripts.getD [])) }
    | none => p2
  let p4 :=
    match p3.dependencies with
    | some d => { p3 with dependencies := some (sortObject d) }
    | none => p3
  match p4.devDependencies with
  | some d => { p4 with devDependencies := some (sortObject d) }
  | none => p4

/-! Wellformedness: real directory listings never repeat a name, and a
path that is a directory in the template but a file in the project
makes the source throw (`readdirSync` on a file) instead of returning
records, so such mixed trees are excluded by hypothesis. -/

mutual

/-- No duplicate names in any directory listing of the tree. -/
def nodupDeep (e : FSEntry) : Bool :=
  match e with
  | FSEntry.file _ => true
  | FSEntry.dir es => nodupEntries es

/-- Listing-level loop of `nodupDeep`. -/
def nodupEntries (es : FSEntries) : Bool :=
  match es with
  | FSEntries.nil => true
  | FSEntries.cons n e rest =>
    !containsName n rest && nodupDeep e && nodupEntries rest

end

/-- No duplicate names in an optional root. -/
def nodupOpt (e : Option FSEntry) : Bool :=
  match e with
  | some x => nodupDeep x
  | none => true

mutual

/-- No path is a directory in the template while a file sits at the
corresponding project path (otherwise the source's deletion walk throws
from `readdirSync`). -/
def conflictFree (src : FSEntry) (dest : Option FSEntry) : Bool :=
  match src, dest with
  | FSEntry.file _, _ => true
  | FSEntry.dir _, some (FSEntry.file _) => false
  | FSEntry.dir es, _ => conflictFreeEntries es dest

/-- Listing-level loop of `conflictFree`. -/
def conflictFreeEntries (es : FSEntries) (dest : Option FSEntry) : Bool :=
  match es with
  | FSEntries.nil => true
  | FSEntries.cons n e rest =>
    conflictFree e (lookupIn dest n) && conflictFreeEntries rest dest

end

/-- `conflictFree` lifted to an optional template root. -/
def conflictFreeOpt (src dest : Option FSEntry) : Bool :=
  match src with
  | some e => conflictFree e dest
  | none => true

mutual

/-- No directory strictly below this entry has zero entries. -/
def noEmptyDirsBelow (e : FSEntry) : Bool :=
  match e with
  | FSEntry.file _ => true
  | FSEntry.dir es => noEmptyDirsEntries es

/-- Listing-level loop of `noEmptyDirsBelow`. -/
def noEmptyDirsEntries (es : FSEntries) : Bool :=
  match es with
  | FSEntries.nil => true
  | FSEntries.cons _ e rest =>
    (match e with
     | FSEntry.file _ => true
     | FSEntry.dir FSEntries.nil => false
     | FSEntry.dir inner => noEmptyDirsEntries inner) && noEmptyDirsEntries rest

end

/-- A change record respects the deletion exclusions: if it is a Delete,
its file name (the last path component) matches no exclusion token and
its relative path neither equals nor is nested under any token. -/
def DeleteGuarded (r : FileChange) : Prop :=
  r.type = ChangeType.delete →
    r.relativePath ≠ [] ∧
    shouldExcludeFromDeletion (r.relativePath.getLastD "") r.relativePath = false

/-! Concrete scenario trees used by closed theorems and witnesses. -/

/-- Template tree for the C1 counterexample: the category subtree
contains a (vendored, empty) `node_modules` directory. -/
def c1Template : FSEntry :=
  FSEntry.dir (FSEntries.cons "node_modules" (FSEntry.dir FSEntries.nil) FSEntries.nil)

/-- Project tree for the C1 counterexample: `node_modules` holds a file
that the template does not have. -/
def c1Project : FSEntry :=
  FSEntry.dir (FSEntries.cons "node_modules"
    (FSEntry.dir (FSEntries.cons "f.txt" (FSEntry.file "x") FSEntries.nil))
    FSEntries.nil)

/-- Project tree for the directory-collapse scenario:
`a/other.txt`, `a/b/c/f1`, `a/b/c/f2`. -/
def collapseProject : FSEntry :=
  FSEntry.dir (FSEntries.cons "a"
    (FSEntry.dir (FSEntries.cons "other.txt" (FSEntry.file "keep")
      (FSEntries.cons "b"
        (FSEntry.dir (FSEntries.cons "c"
          (FSEntry.dir (FSEntries.cons "f1" (FSEntry.file "1")
            (FSEntries.cons "f2" (FSEntry.file "2") FSEntries.nil)))
          FSEntries.nil))
        FSEntries.nil)))
    FSEntries.nil)

/-- Batch deleting the only two files under `a/b/c`. -/
def collapseBatch : List ApplyChange :=
  [⟨ChangeType.delete, ["a", "b", "c", "f1"], "", "scripts"⟩,
   ⟨ChangeType.delete, ["a", "b", "c", "f2"], "", "scripts"⟩]

/-- Project tree with a pre-existing empty directory in an unapproved
category (`services/emptyd`) next to an approved `config` file. -/
def cleanupProject : FSEntry :=
  FSEntry.dir (FSEntries.cons "services"
    (FSEntry.dir (FSEntries.cons "emptyd" (FSEntry.dir FSEntries.nil) FSEntries.nil))
    (FSEntries.cons "config"
      (FSEntry.dir (FSEntries.cons "f.txt" (FSEntry.file "x") FSEntries.nil))
      FSEntries.nil))

/-! Characterisation of the template-side walk (used by the
exactly-one-record claims). -/

/-- The records of a collection whose relative path is exactly `p`. -/
def changesAt (rs : List FileChange) (p : List String) : List FileChange :=
  rs.filter (fun r => r.relativePath == p)

/-- The record the spec expects the template walk to emit for a template
file with content `c` at relative path `p`: Add when nothing exists at
the corresponding project path, nothing when an identical file already
sits there, Modify otherwise (different content, or a directory in the
way). -/
def expectedChange (dest : Option FSEntry) (category : String) (base p : List String)
    (c : String) : List FileChange :=
  match entryAtOpt dest p with
  | none => [⟨ChangeType.add, base ++ p, category⟩]
  | some (FSEntry.file d) =>
    if c == d then [] else [⟨ChangeType.modify, base ++ p, category⟩]
  | some (FSEntry.dir _) => [⟨ChangeType.modify, base ++ p, category⟩]

/-! Induction principles for the mutual tree type. -/

/-- Induction on a directory listing that does not need a motive for the
nested entries (the entry components are treated as opaque). -/
theorem FSEntries.consInduction {motive : FSEntries → Prop} (nil : motive FSEntries.nil)
    (cons : ∀ n e rest, motive rest → motive (FSEntries.cons n e rest)) :
    ∀ es, motive es :=
  fun es =>
    @FSEntries.rec (fun _ => True) motive (fun _ => trivial) (fun _ _ => trivial) nil
      (fun n e rest _ ih => cons n e rest ih) es

/-- Simultaneous induction over entries and listings, packaged for reuse. -/
theorem FSEntry.mutualInduction {m1 : FSEntry → Prop} {m2 : FSEntries → Prop}
    (file : ∀ c, m1 (FSEntry.file c))
    (dir : ∀ es, m2 es → m1 (FSEntry.dir es))
    (nil : m2 FSEntries.nil)
    (cons : ∀ n e rest, m1 e → m2 rest → m2 (FSEntries.cons n e rest)) :
    (∀ e, m1 e) ∧ (∀ es, m2 es) :=
  ⟨fun e => @FSEntry.rec m1 m2 file dir nil cons e,
   fun es => @FSEntries.rec m1 m2 file dir nil cons es⟩

/-! Association-list lemmas for the manifest model. -/

theorem lookupRec_append (k : String) (l1 l2 : List (String × String)) :
    lookupRec k (l1 ++ l2) =
      match lookupRec k l1 with
      | some v => some v
      | none => lookupRec k l2 := by
  induction l1 with
  | nil => rfl
  | cons kv rest ih =>
    by_cases h : kv.1 = k <;> simp [lookupRec, h, ih]

theorem lookupRec_map_override (k : String) (first second : List (String × String)) :
    lookupRec k (first.map (fun kv => (kv.1, (lookupRec kv.1 second).getD kv.2))) =
      (lookupRec k first).map (fun a => (lookupRec k second).getD a) := by
  induction first with
  | nil => rfl
  | cons kv rest ih =>
    by_cases h : kv.1 = k
    · subst h; simp [lookupRec]
    · simp [lookupRec, h, ih]

theorem lookupRec_filter_isNone_of_none (k : String) (first second : List (String × String))
    (h : lookupRec k first = none) :
    lookupRec k (second.filter (fun kv => (lookupRec kv.1 first).isNone)) =
      lookupRec k second := by
  induction second with
  | nil => rfl
  | cons kv rest ih =>
    by_cases hk : kv.1 = k
    · subst hk; simp [List.filter, h, lookupRec]
    · cases hp : (lookupRec kv.1 first).isNone <;>
        simp [List.filter, hp, lookupRec, hk, ih]

theorem lookupRec_spreadMerge_of_some (first second : List (String × String)) (k : String)
    (a : String) (h : lookupRec k first = some a) :
    lookupRec k (spreadMerge first second) = some ((lookupRec k second).getD a) := by
  unfold spreadMerge
  rw [lookupRec_append, lookupRec_map_override, h]
  rfl

theorem lookupRec_spreadMerge_of_none (first second : List (String × String)) (k : String)
    (h : lookupRec k first = none) :
    lookupRec k (spreadMerge first second) = lookupRec k second := by
  unfold spreadMerge
  rw [lookupRec_append, lookupRec_map_override, h]
  exact lookupRec_filter_isNone_of_none k first second h

theorem lookupRec_eq_none_iff (k : String) (l : List (String × String)) :
    lookupRec k l = none ↔ k ∉ l.map Prod.fst := by
  induction l with
  | nil => simp [lookupRec]
  | cons kv rest ih =>
    by_cases h : kv.1 = k
    · simp [lookupRec, h]
    · simp only [lookupRec, h, if_false, ih, List.map_cons, List.mem_cons]
      constructor
      · intro hn hc
        rcases hc with hc | hc
        · exact h hc.symm
        · exact hn hc
      · intro hn hc
        exact hn (Or.inr hc)

theorem charListLe_iff (as : List Char) :
    ∀ bs, charListLe as bs = true ↔ ¬ List.Lex (· < ·) bs as := by
  induction as with
  | nil =>
    intro bs
    exact iff_of_true rfl (fun h => nomatch h)
  | cons a as ih =>
    intro bs
    cases bs with
    | nil =>
      refine iff_of_false ?_ (fun h => h List.Lex.nil)
      simp [charListLe]
    | cons b bs =>
      rcases lt_trichotomy a b with hab | hab | hab
      · rw [charListLe, if_pos hab]
        refine iff_of_true rfl (fun h => ?_)
        cases h with
        | cons h2 => exact lt_irrefl a hab
        | rel hr => exact lt_asymm hab hr
      · subst hab
        rw [charListLe, if_neg (lt_irrefl a), if_neg (lt_irrefl a), ih bs,
          List.Lex.cons_iff]
      · rw [charListLe, if_neg (lt_asymm hab), if_pos hab]
        refine iff_of_false (by simp) (fun h => h (List.Lex.rel hab))

/-- The model's key comparison agrees with the lexicographic order. -/
theorem strLe_iff (a b : String) : strLe a b = true ↔ a ≤ b := by
  have h : (a ≤ b) ↔ ¬ List.Lex (· < ·) b.data a.data := by
    rw [String.le_iff_toList_le]
    exact not_lt.symm
  rw [h]
  exact charListLe_iff a.data b.data

theorem insertSorted_perm (kv : String × String) (l : List (String × String)) :
    List.Perm (insertSorted kv l) (kv :: l) := by
  induction l with
  | nil => simp [insertSorted]
  | cons x xs ih =>
    by_cases h : strLe kv.1 x.1 = true
    · simp [insertSorted, h]
    · simp only [insertSorted, h, if_false]
      exact ((ih.cons x).trans (List.Perm.swap kv x xs))

theorem sortObject_perm (l : List (String × String)) : List.Perm (sortObject l) l := by
  induction l with
  | nil => simp [sortObject]
  | cons x xs ih =>
    exact (insertSorted_perm x (sortObject xs)).trans (ih.cons x)

theorem insertSorted_sorted (kv : String × String) (l : List (String × String))
    (h : List.Sorted (· ≤ ·) (l.map Prod.fst)) :
    List.Sorted (· ≤ ·) ((insertSorted kv l).map Prod.fst) := by
  induction l with
  | nil => simp [insertSorted]
  | cons x xs ih =>
    rw [List.map_cons, List.sorted_cons] at h
    by_cases hc : strLe kv.1 x.1 = true
    · have hle : kv.1 ≤ x.1 := (strLe_iff kv.1 x.1).1 hc
      rw [insertSorted, if_pos hc]
      refine List.sorted_cons.2 ⟨?_, List.sorted_cons.2 ⟨h.1, h.2⟩⟩
      intro b hb
      rcases List.mem_cons.1 hb with hb | hb
      · exact hb ▸ hle
      · exact hle.trans (h.1 b hb)
    · have hle : x.1 ≤ kv.1 := le_of_not_le (fun hl => hc ((strLe_iff kv.1 x.1).2 hl))
      rw [insertSorted, if_neg hc]
      refine List.sorted_cons.2 ⟨?_, ih h.2⟩
      intro b hb
      have hperm := (insertSorted_perm kv xs).map Prod.fst
      rcases List.mem_cons.1 (hperm.mem_iff.1 hb) with hb | hb
      · exact hb ▸ hle
      · exact h.1 b hb

theorem sortObject_sorted (l : List (String × String)) :
    List.Sorted (· ≤ ·) ((sortObject l).map Prod.fst) := by
  induction l with
  | nil => simp [sortObject]
  | cons x xs ih => exact insertSorted_sorted x (sortObject xs) ih

theorem lookupRec_insertSorted_self (kv : String × String) (l : List (String × String))
    (h : kv.1 ∉ l.map Prod.fst) :
    lookupRec kv.1 (insertSorted kv l) = some kv.2 := by
  induction l with
  | nil => simp [insertSorted, lookupRec]
  | cons x xs ih =>
    simp only [List.map_cons, List.mem_cons] at h
    push_neg at h
    by_cases hle : strLe kv.1 x.1 = true
    · simp [insertSorted, hle, lookupRec]
    · have hx : ¬ x.1 = kv.1 := fun hx => h.1 hx.symm
      rw [insertSorted, if_neg hle, lookupRec, if_neg hx]
      exact ih h.2

theorem lookupRec_insertSorted_ne (kv : String × String) (l : List (String × String))
    (k : String) (h : k ≠ kv.1) :
    lookupRec k (insertSorted kv l) = lookupRec k l := by
  have hkv : ¬ kv.1 = k := fun hx => h hx.symm
  induction l with
  | nil => simp [insertSorted, lookupRec, hkv]
  | cons x xs ih =>
    by_cases hle : strLe kv.1 x.1 = true
    · rw [insertSorted, if_pos hle, lookupRec, if_neg hkv]
    · rw [insertSorted, if_neg hle, lookupRec, lookupRec]
      by_cases hx : x.1 = k
      · rw [if_pos hx, if_pos hx]
      · rw [if_neg hx, if_neg hx]
        exact ih

theorem lookupRec_sortObject (l : List (String × String))
    (h : (l.map Prod.fst).Nodup) (k : String) :
    lookupRec k (sortObject l) = lookupRec k l := by
  induction l with
  | nil => rfl
  | cons x xs ih =>
    rw [List.map_cons, List.nodup_cons] at h
    by_cases hk : k = x.1
    · subst hk
      have hmem : x.1 ∉ (sortObject xs).map Prod.fst := fun hm =>
        h.1 (((sortObject_perm xs).map Prod.fst).mem_iff.1 hm)
      rw [sortObject, lookupRec_insertSorted_self x (sortObject xs) hmem]
      simp [lookupRec]
    · rw [sortObject, lookupRec_insertSorted_ne x (sortObject xs) k hk, ih h.2,
        lookupRec, if_neg (fun hx : x.1 = k => hk hx.symm)]

theorem spreadMerge_keys_nodup (first second : List (String × String))
    (h1 : (first.map Prod.fst).Nodup) (h2 : (second.map Prod.fst).Nodup) :
    ((spreadMerge first second).map Prod.fst).Nodup := by
  unfold spreadMerge
  rw [List.map_append, List.nodup_append]
  refine ⟨?_, ?_, ?_⟩
  · have : (first.map (fun kv => (kv.1, (lookupRec kv.1 second).getD kv.2))).map Prod.fst
        = first.map Prod.fst := by
      rw [List.map_map]; rfl
    rw [this]; exact h1
  · exact List.Nodup.sublist ((List.filter_sublist second).map Prod.fst) h2
  · intro a ha hb
    rcases List.mem_map.1 hb with ⟨kv, hkv, hkb⟩
    have hpred := List.of_mem_filter hkv
    have hanone : lookupRec a first = none := by
      subst hkb
      simpa [Option.isNone_iff_eq_none] using hpred
    have hmap : (first.map (fun kv => (kv.1, (lookupRec kv.1 second).getD kv.2))).map Prod.fst
        = first.map Prod.fst := by
      rw [List.map_map]; rfl
    rw [hmap] at ha
    exact ((lookupRec_eq_none_iff a first).1 hanone) ha

/-! Field projections of the two manifest write-backs. -/

theorem applyDependencyMerge_dependencies (t p : Manifest) :
    (applyDependencyMerge t p).dependencies =
      match t.dependencies with
      | some td => some (sortObject (spreadMerge (p.dependencies.getD []) td))
      | none => p.dependencies.map sortObject := by
  rcases t with ⟨td, tdd, ts⟩
  rcases p with ⟨pd, pdd, ps⟩
  cases td <;> cases tdd <;> cases ts <;> cases pd <;> cases pdd <;> rfl

theorem applyDependencyMerge_devDependencies (t p : Manifest) :
    (applyDependencyMerge t p).devDependencies =
      match t.devDependencies with
      | some td => some (sortObject (spreadMerge (p.devDependencies.getD []) td))
      | none => p.devDependencies.map sortObject := by
  rcases t with ⟨td, tdd, ts⟩
  rcases p with ⟨pd, pdd, ps⟩
  cases td <;> cases tdd <;> cases ts <;> cases pd <;> cases pdd <;> rfl

theorem applyDependencyMergeAdditive_scripts (t p : Manifest) :
    (applyDependencyMergeAdditive t p).scripts =
      match t.scripts with
      | some ts => some (spreadMerge ts (p.scripts.getD []))
      | none => p.scripts := by
  rcases t with ⟨td, tdd, ts⟩
  rcases p with ⟨pd, pdd, ps⟩
  cases td <;> cases tdd <;> cases ts <;> cases pd <;> cases pdd <;> rfl

/-- Merged group lookup: a key the template group defines gets the
template's value (after sorting), under no-duplicate-key assumptions. -/
theorem merged_lookup_template (pd td : List (String × String)) (k v : String)
    (hpd : (pd.map Prod.fst).Nodup) (htd : (td.map Prod.fst).Nodup)
    (h : lookupRec k td = some v) :
    lookupRec k (sortObject (spreadMerge pd td)) = some v := by
  rw [lookupRec_sortObject (spreadMerge pd td) (spreadMerge_keys_nodup pd td hpd htd) k]
  cases hp : lookupRec k pd with
  | some a => rw [lookupRec_spreadMerge_of_some pd td k a hp, h]; rfl
  | none => rw [lookupRec_spreadMerge_of_none pd td k hp]; exact h

/-- Merged group lookup: a key the template group does not define keeps
the project's value (after sorting). -/
theorem merged_lookup_project (pd td : List (String × String)) (k : String)
    (hpd : (pd.map Prod.fst).Nodup) (htd : (td.map Prod.fst).Nodup)
    (h : lookupRec k td = none) :
    lookupRec k (sortObject (spreadMerge pd td)) = lookupRec k pd := by
  rw [lookupRec_sortObject (spreadMerge pd td) (spreadMerge_keys_nodup pd td hpd htd) k]
  cases hp : lookupRec k pd with
  | some a => rw [lookupRec_spreadMerge_of_some pd td k a hp, h]; rfl
  | none => rw [lookupRec_spreadMerge_of_none pd td k hp, h]

/-- C3: when the dependencies category is approved and a manifest diff
exists, the written dependencies map (and likewise devDependencies)
maps every key the template defines to the template's value and every
remaining key to the project's value, and both written maps are sorted
lexicographically by key; in particular template `{"a":"1"}` merged
over project `{"a":"2","b":"3"}` yields `{"a":"1","b":"3"}`. -/
theorem C3_dependency_merge_precedence (t p : Manifest)
    (h1 : ((t.dependencies.getD []).map Prod.fst).Nodup)
    (h2 : ((p.dependencies.getD []).map Prod.fst).Nodup)
    (h3 : ((t.devDependencies.getD []).map Prod.fst).Nodup)
    (h4 : ((p.devDependencies.getD []).map Prod.fst).Nodup) :
    (∀ k v, lookupRec k (t.dependencies.getD []) = some v →
      lookupRec k ((applyDependencyMerge t p).dependencies.getD []) = some v) ∧
    (∀ k, lookupRec k (t.dependencies.getD []) = none →
      lookupRec k ((applyDependencyMerge t p).dependencies.getD []) =
        lookupRec k (p.dependencies.getD [])) ∧
    List.Sorted (· ≤ ·) (((applyDependencyMerge t p).dependencies.getD []).map Prod.fst) ∧
    (∀ k v, lookupRec k (t.devDependencies.getD []) = some v →
      lookupRec k ((applyDependencyMerge t p).devDependencies.getD []) = some v) ∧
    (∀ k, lookupRec k (t.devDependencies.getD []) = none →
      lookupRec k ((applyDependencyMerge t p).devDependencies.getD []) =
        lookupRec k (p.devDependencies.getD [])) ∧
    List.Sorted (· ≤ ·) (((applyDependencyMerge t p).devDependencies.getD []).map Prod.fst) ∧
    applyDependencyMerge ⟨some [("a", "1")], none, none⟩
        ⟨some [("a", "2"), ("b", "3")], none, none⟩ =
      ⟨some [("a", "1"), ("b", "3")], none, none⟩ := by
  have hdep := applyDependencyMerge_dependencies t p
  have hdev := applyDependencyMerge_devDependencies t p
  refine ⟨?_, ?_, ?_, ?_, ?_, ?_, by decide⟩
  · intro k v hv
    cases ht : t.dependencies with
    | none => rw [ht] at hv; exact absurd hv (by simp [lookupRec])
    | some td =>
      rw [ht] at hv h1
      rw [hdep, ht]
      exact merged_lookup_template (p.dependencies.getD []) td k v h2 h1 hv
  · intro k hv
    cases ht : t.dependencies with
    | none =>
      rw [hdep, ht]
      cases hp : p.dependencies with
      | none => simp
      | some d =>
        rw [hp] at h2
        simpa using lookupRec_sortObject d h2 k
    | some td =>
      rw [ht] at hv h1
      rw [hdep, ht]
      exact merged_lookup_project (p.dependencies.getD []) td k h2 h1 hv
  · rw [hdep]
    cases ht : t.dependencies with
    | none =>
      cases hp : p.dependencies with
      | none => simp
      | some d => simpa using sortObject_sorted d
    | some td => simpa using sortObject_sorted (spreadMerge (p.dependencies.getD []) td)
  · intro k v hv
    cases ht : t.devDependencies with
    | none => rw [ht] at hv; exact absurd hv (by simp [lookupRec])
    | some td =>
      rw [ht] at hv h3
      rw [hdev, ht]
      exact merged_lookup_template (p.devDependencies.getD []) td k v h4 h3 hv
  · intro k hv
    cases ht : t.devDependencies with
    | none =>
      rw [hdev, ht]
      cases hp : p.devDependencies with
      | none => simp
      | some d =>
        rw [hp] at h4
        simpa using lookupRec_sortObject d h4 k
    | some td =>
      rw [ht] at hv h3
      rw [hdev, ht]
      exact merged_lookup_project (p.devDependencies.getD []) td k h4 h3 hv
  · rw [hdev]
    cases ht : t.devDependencies with
    | none =>
      cases hp : p.devDependencies with
      | none => simp
      | some d => simpa using sortObject_sorted d
    | some td => simpa using sortObject_sorted (spreadMerge (p.devDependencies.getD []) td)

/-- C3 witness: the theorem applied at the spec's concrete example. -/
theorem C3_dependency_merge_precedence_witness :
    lookupRec "a"
        ((applyDependencyMerge ⟨some [("a", "1")], none, none⟩
          ⟨some [("a", "2"), ("b", "3")], none, none⟩).dependencies.getD []) = some "1" ∧
    lookupRec "b"
        ((applyDependencyMerge ⟨some [("a", "1")], none, none⟩
          ⟨some [("a", "2"), ("b", "3")], none, none⟩).dependencies.getD []) = some "3" := by
  have h := C3_dependency_merge_precedence ⟨some [("a", "1")], none, none⟩
    ⟨some [("a", "2"), ("b", "3")], none, none⟩ (by decide) (by decide) (by decide) (by decide)
  exact ⟨h.1 "a" "1" (by decide), h.2.1 "b" (by decide)⟩

/-- C6: in the additive merge variant, every script key the project
manifest already defines keeps the project's command string; template
scripts only fill keys the project does not define. -/
theorem C6_additive_scripts_project_precedence (t p : Manifest) :
    (∀ k v, lookupRec k (p.scripts.getD []) = some v →
      lookupRec k ((applyDependencyMergeAdditive t p).scripts.getD []) = some v) ∧
    (∀ k, lookupRec k (p.scripts.getD []) = none →
      lookupRec k ((applyDependencyMergeAdditive t p).scripts.getD []) =
        lookupRec k (t.scripts.getD [])) := by
  have hs := applyDependencyMergeAdditive_scripts t p
  constructor
  · intro k v hv
    cases ht : t.scripts with
    | none => rw [hs, ht]; exact hv
    | some ts =>
      rw [hs, ht]
      cases htk : lookupRec k ts with
      | some a =>
        rw [Option.getD_some, lookupRec_spreadMerge_of_some ts (p.scripts.getD []) k a htk, hv]
        rfl
      | none =>
        rw [Option.getD_some, lookupRec_spreadMerge_of_none ts (p.scripts.getD []) k htk]
        exact hv
  · intro k hv
    cases ht : t.scripts with
    | none =>
      rw [hs, ht]
      simpa [lookupRec] using hv
    | some ts =>
      rw [hs, ht]
      cases htk : lookupRec k ts with
      | some a =>
        rw [Option.getD_some, lookupRec_spreadMerge_of_some ts (p.scripts.getD []) k a htk,
          Option.getD_some, htk, hv]
        rfl
      | none =>
        rw [Option.getD_some, lookupRec_spreadMerge_of_none ts (p.scripts.getD []) k htk,
          Option.getD_some, htk, hv]

/-- C6 witness: a customized project script survives the merge and a
missing one is filled from the template. -/
theorem C6_additive_scripts_project_precedence_witness :
    lookupRec "build"
        ((applyDependencyMergeAdditive ⟨none, none, some [("build", "turbo build")]⟩
          ⟨none, none, some [("build", "my build")]⟩).scripts.getD []) = some "my build" ∧
    lookupRec "lint"
        ((applyDependencyMergeAdditive ⟨none, none, some [("lint", "eslint .")]⟩
          ⟨none, none, some [("build", "my build")]⟩).scripts.getD []) =
      some "eslint ." := by
  have h1 := C6_additive_scripts_project_precedence
    ⟨none, none, some [("build", "turbo build")]⟩ ⟨none, none, some [("build", "my build")]⟩
  have h2 := C6_additive_scripts_project_precedence
    ⟨none, none, some [("lint", "eslint .")]⟩ ⟨none, none, some [("build", "my build")]⟩
  refine ⟨h1.1 "build" "my build" (by decide), ?_⟩
  rw [h2.2 "lint" (by decide)]
  decide

/-! Lemmas about the manifest differ. -/

theorem foldl_diffStep_acc (proj : Option (List (String × String)))
    (entries : List (String × String)) :
    ∀ a u, entries.foldl (diffStep proj) (a, u) =
      (a ++ (entries.foldl (diffStep proj) ([], [])).1,
       u ++ (entries.foldl (diffStep proj) ([], [])).2) := by
  induction entries with
  | nil => intro a u; simp
  | cons kv rest ih =>
    intro a u
    rw [List.foldl_cons, List.foldl_cons]
    cases hx : proj.bind (fun r => lookupRec kv.1 r) with
    | none =>
      rw [show diffStep proj (a, u) kv = (a ++ [kv], u) by simp [diffStep, hx],
        show diffStep proj ([], []) kv = ([kv], []) by simp [diffStep, hx],
        ih (a ++ [kv]) u, ih [kv] []]
      simp
    | some v =>
      by_cases hv : v = ""
      · rw [show diffStep proj (a, u) kv = (a ++ [kv], u) by simp [diffStep, hx, hv],
          show diffStep proj ([], []) kv = ([kv], []) by simp [diffStep, hx, hv],
          ih (a ++ [kv]) u, ih [kv] []]
        simp
      · by_cases hne : v ≠ kv.2
        · rw [show diffStep proj (a, u) kv = (a, u ++ [(kv.1, v, kv.2)]) by
              simp [diffStep, hx, hv, hne],
            show diffStep proj ([], []) kv = ([], [(kv.1, v, kv.2)]) by
              simp [diffStep, hx, hv, hne],
            ih a (u ++ [(kv.1, v, kv.2)]), ih [] [(kv.1, v, kv.2)]]
          simp
        · rw [show diffStep proj (a, u) kv = (a, u) by simp [diffStep, hx, hv, hne],
            show diffStep proj ([], []) kv = ([], []) by simp [diffStep, hx, hv, hne]]
          exact ih a u

theorem diffGroup_cons (kv : String × String) (rest : List (String × String))
    (proj : Option (List (String × String))) :
    diffGroup (some (kv :: rest)) proj =
      ((diffStep proj ([], []) kv).1 ++ (diffGroup (some rest) proj).1,
       (diffStep proj ([], []) kv).2 ++ (diffGroup (some rest) proj).2) := by
  show (kv :: rest).foldl (diffStep proj) ([], []) = _
  rw [List.foldl_cons]
  have h := foldl_diffStep_acc proj rest (diffStep proj ([], []) kv).1
    (diffStep proj ([], []) kv).2
  exact h.trans rfl

theorem diffGroup_added_mem (entries : List (String × String))
    (proj : Option (List (String × String))) (k v : String)
    (hk : lookupRec k entries = some v)
    (hp : proj.bind (fun r => lookupRec k r) = none ∨
      proj.bind (fun r => lookupRec k r) = some "") :
    (k, v) ∈ (diffGroup (some entries) proj).1 := by
  induction entries with
  | nil => exact absurd hk (by simp [lookupRec])
  | cons kv rest ih =>
    rw [diffGroup_cons]
    by_cases hkk : kv.1 = k
    · rw [lookupRec, if_pos hkk] at hk
      have hd : (diffStep proj ([], []) kv).1 = [kv] := by
        rcases hp with hp | hp <;> rw [← hkk] at hp <;> simp [diffStep, hp]
      rw [hd]
      have : kv = (k, v) := by
        rcases kv with ⟨k1, v1⟩
        simp only at hkk
        cases hk
        rw [hkk]
      simp [this]
    · rw [lookupRec, if_neg hkk] at hk
      simp only []
      exact List.mem_append_right _ (ih hk)

theorem diffGroup_updated_mem (entries : List (String × String))
    (proj : Option (List (String × String))) (k v pv : String)
    (hk : lookupRec k entries = some v)
    (hp : proj.bind (fun r => lookupRec k r) = some pv)
    (hpv : pv ≠ "") (hne : pv ≠ v) :
    (k, pv, v) ∈ (diffGroup (some entries) proj).2 := by
  induction entries with
  | nil => exact absurd hk (by simp [lookupRec])
  | cons kv rest ih =>
    rw [diffGroup_cons]
    by_cases hkk : kv.1 = k
    · rw [lookupRec, if_pos hkk] at hk
      have hv2 : kv.2 = v := Option.some.inj hk
      have hp2 : proj.bind (fun r => lookupRec kv.1 r) = some pv := by rw [hkk]; exact hp
      have hne2 : pv ≠ kv.2 := by rw [hv2]; exact hne
      have hd : (diffStep proj ([], []) kv).2 = [(kv.1, pv, kv.2)] := by
        simp [diffStep, hp2, hpv, hne2]
      rw [hd, hkk, hv2]
      exact List.mem_append_left _ (List.mem_singleton.2 rfl)
    · rw [lookupRec, if_neg hkk] at hk
      exact List.mem_append_right _ (ih hk)

theorem diffGroup_added_falsy (entries : List (String × String))
    (proj : Option (List (String × String))) :
    ∀ x ∈ (diffGroup (some entries) proj).1,
      proj.bind (fun r => lookupRec x.1 r) = none ∨
        proj.bind (fun r => lookupRec x.1 r) = some "" := by
  induction entries with
  | nil => intro x hx; exact absurd hx (by simp [diffGroup])
  | cons kv rest ih =>
    intro x hx
    rw [diffGroup_cons] at hx
    rcases List.mem_append.1 hx with hx | hx
    · cases hp : proj.bind (fun r => lookupRec kv.1 r) with
      | none =>
        rw [show (diffStep proj ([], []) kv).1 = [kv] by simp [diffStep, hp]] at hx
        rw [List.mem_singleton.1 hx]
        exact Or.inl hp
      | some v =>
        by_cases hv : v = ""
        · rw [show (diffStep proj ([], []) kv).1 = [kv] by simp [diffStep, hp, hv]] at hx
          rw [List.mem_singleton.1 hx]
          exact Or.inr (hv ▸ hp)
        · have : (diffStep proj ([], []) kv).1 = [] := by
            by_cases hne : v ≠ kv.2 <;> simp [diffStep, hp, hv, hne]
          rw [this] at hx
          exact absurd hx (List.not_mem_nil x)
    · exact ih x hx

theorem diffGroup_updated_nonfalsy (entries : List (String × String))
    (proj : Option (List (String × String))) :
    ∀ y ∈ (diffGroup (some entries) proj).2,
      ∃ pv, proj.bind (fun r => lookupRec y.1 r) = some pv ∧ pv ≠ "" := by
  induction entries with
  | nil => intro y hy; exact absurd hy (by simp [diffGroup])
  | cons kv rest ih =>
    intro y hy
    rw [diffGroup_cons] at hy
    rcases List.mem_append.1 hy with hy | hy
    · cases hp : proj.bind (fun r => lookupRec kv.1 r) with
      | none =>
        rw [show (diffStep proj ([], []) kv).2 = [] by simp [diffStep, hp]] at hy
        exact absurd hy (List.not_mem_nil y)
      | some v =>
        by_cases hv : v = ""
        · rw [show (diffStep proj ([], []) kv).2 = [] by simp [diffStep, hp, hv]] at hy
          exact absurd hy (List.not_mem_nil y)
        · by_cases hne : v ≠ kv.2
          · rw [show (diffStep proj ([], []) kv).2 = [(kv.1, v, kv.2)] by
                simp [diffStep, hp, hv, hne]] at hy
            rw [List.mem_singleton.1 hy]
            exact ⟨v, hp, hv⟩
          · rw [show (diffStep proj ([], []) kv).2 = [] by
                simp [diffStep, hp, hv, hne]] at hy
            exact absurd hy (List.not_mem_nil y)
    · exact ih y hy

theorem optionBind_lookupRec (o : Option (List (String × String))) (k : String) :
    o.bind (fun r => lookupRec k r) = lookupRec k (o.getD []) := by
  cases o <;> rfl

/-- C5 counterexample: the dependency `x` is present in both manifests
with different value strings (`""` in the project, `"1"` in the
template), yet the differ reports it under `added`, and `updated` stays
empty — the source's falsy check (`!projectPkg[depType]?.[pkg]`)
treats an empty-string value as absent. -/
theorem C5_counterexample :
    collectDependencyChanges (some ⟨some [("x", "1")], none, none⟩)
        (some ⟨some [("x", "")], none, none⟩) =
      some ⟨⟨[("x", "1")], [], []⟩, ⟨[], [], []⟩⟩ ∧
    lookupRec "x" [("x", "1")] = some "1" ∧
    lookupRec "x" [("x", "")] = some "" ∧
    ("" : String) ≠ "1" := by
  refine ⟨by decide, by decide, by decide, by decide⟩

/-- C5 (amended): `collectDependencyChanges` returns `None` exactly when
the template or the project manifest is missing; otherwise, for each of
the two dependency groups, every template entry absent from the project
*or whose project value is the empty string* appears in `added` with the
template value, every entry present in both with a non-empty, different
project value appears in `updated` as `{from, to}`, and no name appears
in both `added` and `updated` of the same group. -/
theorem C5_dependency_diff (t p : Manifest) (ch : ContentChange)
    (hch : collectDependencyChanges (some t) (some p) = some ch) :
    (∀ tO pO : Option Manifest,
      collectDependencyChanges tO pO = none ↔ (tO = none ∨ pO = none)) ∧
    (∀ k v, lookupRec k (t.dependencies.getD []) = some v →
      (lookupRec k (p.dependencies.getD []) = none ∨
        lookupRec k (p.dependencies.getD []) = some "") →
      (k, v) ∈ ch.added.dependencies) ∧
    (∀ k v pv, lookupRec k (t.dependencies.getD []) = some v →
      lookupRec k (p.dependencies.getD []) = some pv → pv ≠ "" → pv ≠ v →
      (k, pv, v) ∈ ch.updated.dependencies) ∧
    (∀ k, ¬(k ∈ ch.added.dependencies.map Prod.fst ∧
      k ∈ ch.updated.dependencies.map Prod.fst)) ∧
    (∀ k v, lookupRec k (t.devDependencies.getD []) = some v →
      (lookupRec k (p.devDependencies.getD []) = none ∨
        lookupRec k (p.devDependencies.getD []) = some "") →
      (k, v) ∈ ch.added.devDependencies) ∧
    (∀ k v pv, lookupRec k (t.devDependencies.getD []) = some v →
      lookupRec k (p.devDependencies.getD []) = some pv → pv ≠ "" → pv ≠ v →
      (k, pv, v) ∈ ch.updated.devDependencies) ∧
    (∀ k, ¬(k ∈ ch.added.devDependencies.map Prod.fst ∧
      k ∈ ch.updated.devDependencies.map Prod.fst)) := by
  have hadd : ch.added.dependencies = (diffGroup t.dependencies p.dependencies).1 ∧
      ch.updated.dependencies = (diffGroup t.dependencies p.dependencies).2 ∧
      ch.added.devDependencies = (diffGroup t.devDependencies p.devDependencies).1 ∧
      ch.updated.devDependencies = (diffGroup t.devDependencies p.devDependencies).2 := by
    have h := Option.some.inj hch
    rw [← h]
    exact ⟨rfl, rfl, rfl, rfl⟩
  obtain ⟨ha, hu, hda, hdu⟩ := hadd
  have main : ∀ tg pg : Option (List (String × String)),
      (∀ k v, lookupRec k (tg.getD []) = some v →
        (lookupRec k (pg.getD []) = none ∨ lookupRec k (pg.getD []) = some "") →
        (k, v) ∈ (diffGroup tg pg).1) ∧
      (∀ k v pv, lookupRec k (tg.getD []) = some v →
        lookupRec k (pg.getD []) = some pv → pv ≠ "" → pv ≠ v →
        (k, pv, v) ∈ (diffGroup tg pg).2) ∧
      (∀ k, ¬(k ∈ (diffGroup tg pg).1.map Prod.fst ∧
        k ∈ (diffGroup tg pg).2.map Prod.fst)) := by
    intro tg pg
    refine ⟨?_, ?_, ?_⟩
    · intro k v hk hp
      cases tg with
      | none => exact absurd hk (by simp [lookupRec])
      | some entries =>
        refine diffGroup_added_mem entries pg k v hk ?_
        rw [optionBind_lookupRec]
        exact hp
    · intro k v pv hk hp hpv hne
      cases tg with
      | none => exact absurd hk (by simp [lookupRec])
      | some entries =>
        refine diffGroup_updated_mem entries pg k v pv hk ?_ hpv hne
        rw [optionBind_lookupRec]
        exact hp
    · intro k ⟨hka, hku⟩
      cases tg with
      | none => exact absurd hka (by simp [diffGroup])
      | some entries =>
        rcases List.mem_map.1 hka with ⟨x, hx, hxk⟩
        rcases List.mem_map.1 hku with ⟨y, hy, hyk⟩
        have h1 := diffGroup_added_falsy entries pg x hx
        have h2 := diffGroup_updated_nonfalsy entries pg y hy
        rcases h2 with ⟨pv, hpv, hpvne⟩
        rw [hxk] at h1
        rw [hyk] at hpv
        rcases h1 with h1 | h1
        · rw [h1] at hpv; exact Option.noConfusion hpv
        · rw [h1] at hpv
          exact hpvne (Option.some.inj hpv).symm
  refine ⟨?_, ?_, ?_, ?_, ?_, ?_, ?_⟩
  · intro tO pO
    cases tO <;> cases pO <;> simp [collectDependencyChanges]
  · rw [ha]; exact (main t.dependencies p.dependencies).1
  · rw [hu]; exact (main t.dependencies p.dependencies).2.1
  · rw [ha, hu]; exact (main t.dependencies p.dependencies).2.2
  · rw [hda]; exact (main t.devDependencies p.devDependencies).1
  · rw [hdu]; exact (main t.devDependencies p.devDependencies).2.1
  · rw [hda, hdu]; exact (main t.devDependencies p.devDependencies).2.2

/-- C5 witness: the theorem applied to a concrete pair of manifests
(`a` missing from the project, `b` present with a different version). -/
theorem C5_dependency_diff_witness :
    ∃ ch, collectDependencyChanges
        (some ⟨some [("a", "1"), ("b", "2")], none, none⟩)
        (some ⟨some [("b", "3")], none, none⟩) = some ch ∧
      ("a", "1") ∈ ch.added.dependencies ∧
      ("b", "3", "2") ∈ ch.updated.dependencies := by
  refine ⟨⟨⟨[("a", "1")], [], []⟩, ⟨[("b", "3", "2")], [], []⟩⟩, by decide, ?_, ?_⟩
  · exact (C5_dependency_diff ⟨some [("a", "1"), ("b", "2")], none, none⟩
      ⟨some [("b", "3")], none, none⟩ _ (by decide)).2.1 "a" "1" (by decide)
      (Or.inl (by decide))
  · exact (C5_dependency_diff ⟨some [("a", "1"), ("b", "2")], none, none⟩
      ⟨some [("b", "3")], none, none⟩ _ (by decide)).2.2.1 "b" "2" "3" (by decide)
      (by decide) (by decide) (by decide)

/-! Unfolding equations for the collectors. -/

theorem collectDeletedFiles_file (c : String) (category : String) (base : List String) :
    collectDeletedFiles (FSEntry.file c) category base = [] := rfl

theorem collectDeletedFiles_dir (ds : FSEntries) (category : String) (base : List String) :
    collectDeletedFiles (FSEntry.dir ds) category base =
      collectDeletedEntries ds category base := rfl

theorem collectDeletedEntries_nil (category : String) (base : List String) :
    collectDeletedEntries FSEntries.nil category base = [] := rfl

theorem collectDeletedEntries_cons (n : String) (e : FSEntry) (rest : FSEntries)
    (category : String) (base : List String) :
    collectDeletedEntries (FSEntries.cons n e rest) category base =
      (if shouldExcludeFromDeletion n (base ++ [n]) then []
       else
         match e with
         | FSEntry.dir _ => collectDeletedFiles e category (base ++ [n])
         | FSEntry.file _ => [⟨ChangeType.delete, base ++ [n], category⟩]) ++
      collectDeletedEntries rest category base := rfl

theorem collectDeletions_nil (src : Option FSEntry) (category : String)
    (base : List String) :
    collectDeletions src FSEntries.nil category base = [] := rfl

theorem collectDeletions_cons (src : Option FSEntry) (n : String) (e : FSEntry)
    (rest : FSEntries) (category : String) (base : List String) :
    collectDeletions src (FSEntries.cons n e rest) category base =
      (if shouldExcludeFromDeletion n (base ++ [n]) then []
       else if (lookupIn src n).isSome then []
       else
         match e with
         | FSEntry.dir _ => collectDeletedFiles e category (base ++ [n])
         | FSEntry.file _ => [⟨ChangeType.delete, base ++ [n], category⟩]) ++
      collectDeletions src rest category base := rfl

theorem collectFromTemplate_nil (dest : Option FSEntry) (category : String)
    (base : List String) (chk : Bool) :
    collectFromTemplate FSEntries.nil dest category base chk = [] := rfl

theorem collectFromTemplate_cons (n : String) (e : FSEntry) (rest : FSEntries)
    (dest : Option FSEntry) (category : String) (base : List String) (chk : Bool) :
    collectFromTemplate (FSEntries.cons n e rest) dest category base chk =
      (match e with
       | FSEntry.dir _ => collectEntryChanges e (lookupIn dest n) category (base ++ [n]) chk
       | FSEntry.file _ =>
         if (lookupIn dest n).isSome = false then
           [⟨ChangeType.add, base ++ [n], category⟩]
         else if compareFiles (some e) (lookupIn dest n) = false then
           [⟨ChangeType.modify, base ++ [n], category⟩]
         else []) ++
      collectFromTemplate rest dest category base chk := rfl

theorem collectEntryChanges_eq (src : FSEntry) (dest : Option FSEntry) (category : String)
    (base : List String) (chk : Bool) :
    collectEntryChanges src dest category base chk =
      (match src with
       | FSEntry.dir es => collectFromTemplate es dest category base chk
       | FSEntry.file _ => []) ++
      deletionPart (some src) dest category base chk := by
  cases src <;> rfl

theorem collectEntryChanges_dir (es : FSEntries) (dest : Option FSEntry) (category : String)
    (base : List String) (chk : Bool) :
    collectEntryChanges (FSEntry.dir es) dest category base chk =
      collectFromTemplate es dest category base chk ++
      deletionPart (some (FSEntry.dir es)) dest category base chk := rfl

theorem collectEntryChanges_file (c : String) (dest : Option FSEntry) (category : String)
    (base : List String) (chk : Bool) :
    collectEntryChanges (FSEntry.file c) dest category base chk =
      deletionPart (some (FSEntry.file c)) dest category base chk := by
  rw [collectEntryChanges_eq]
  rfl

theorem collectFileChanges_some (e : FSEntry) (dest : Option FSEntry) (category : String)
    (base : List String) (chk : Bool) :
    collectFileChanges (some e) dest category base chk =
      collectEntryChanges e dest category base chk := rfl

theorem collectFileChanges_none (dest : Option FSEntry) (category : String)
    (base : List String) (chk : Bool) :
    collectFileChanges none dest category base chk =
      deletionPart none dest category base chk := rfl

theorem mem_deletionPart {r : FileChange} (src dest : Option FSEntry) (category : String)
    (base : List String) (chk : Bool) (hr : r ∈ deletionPart src dest category base chk) :
    ∃ ds, dest = some (FSEntry.dir ds) ∧ chk = true ∧
      r ∈ collectDeletions src ds category base := by
  unfold deletionPart at hr
  by_cases hc : chk = true
  · rw [if_pos hc] at hr
    cases dest with
    | none => exact absurd hr (List.not_mem_nil r)
    | some de =>
      cases de with
      | file c => exact absurd hr (List.not_mem_nil r)
      | dir ds => exact ⟨ds, rfl, hc, hr⟩
  · rw [if_neg hc] at hr
    exact absurd hr (List.not_mem_nil r)

/-! Collector claims. -/

/-- C4: `compareFiles` reports equality iff both paths hold files with
exactly the same content (content-trust, not semantic diffing); hence
two files whose contents differ at all — in particular only in line
endings or whitespace — produce exactly one Modify record. -/
theorem C4_compareFiles_exact_content :
    (∀ s d : Option FSEntry, compareFiles s d = true ↔
      ∃ c, s = some (FSEntry.file c) ∧ d = some (FSEntry.file c)) ∧
    (∀ (category : String) (base : List String) (n a b : String), a ≠ b →
      collectFileChanges
          (some (FSEntry.dir (FSEntries.cons n (FSEntry.file a) FSEntries.nil)))
          (some (FSEntry.dir (FSEntries.cons n (FSEntry.file b) FSEntries.nil)))
          category base true =
        [⟨ChangeType.modify, base ++ [n], category⟩]) := by
  constructor
  · intro s d
    cases d with
    | none => simp [compareFiles]
    | some de =>
      cases s with
      | none => simp [compareFiles]
      | some se =>
        cases se <;> cases de <;> simp [compareFiles]
        exact eq_comm
  · intro category base n a b hab
    have hbeq : (a == b) = false := beq_eq_false_iff_ne.mpr hab
    have h1 : lookupIn (some (FSEntry.dir (FSEntries.cons n (FSEntry.file b) FSEntries.nil))) n
        = some (FSEntry.file b) := by simp [lookupIn, lookupEntries]
    have h2 : lookupIn (some (FSEntry.dir (FSEntries.cons n (FSEntry.file a) FSEntries.nil))) n
        = some (FSEntry.file a) := by simp [lookupIn, lookupEntries]
    rw [collectFileChanges_some, collectEntryChanges_dir, collectFromTemplate_cons,
      collectFromTemplate_nil]
    by_cases he : shouldExcludeFromDeletion n (base ++ [n]) = true <;>
      simp [deletionPart, collectDeletions_cons, collectDeletions_nil, h1, h2,
        compareFiles, hbeq, he]

/-- C4 witness: a CRLF-vs-LF difference is still reported as Modify. -/
theorem C4_compareFiles_exact_content_witness :
    compareFiles (some (FSEntry.file "echo 1\n")) (some (FSEntry.file "echo 1\r\n")) = false ∧
    collectFileChanges
        (some (FSEntry.dir (FSEntries.cons "run.sh" (FSEntry.file "echo 1\n") FSEntries.nil)))
        (some (FSEntry.dir (FSEntries.cons "run.sh" (FSEntry.file "echo 1\r\n") FSEntries.nil)))
        "scripts" ["scripts"] true =
      [⟨ChangeType.modify, ["scripts", "run.sh"], "scripts"⟩] := by
  constructor
  · decide
  · exact C4_compareFiles_exact_content.2 "scripts" ["scripts"] "run.sh"
      "echo 1\n" "echo 1\r\n" (by decide)

/-! Every emitted Delete record passes the exclusion guard. -/

theorem deleteGuarded_record (n : String) (base : List String) (category : String)
    (h : shouldExcludeFromDeletion n (base ++ [n]) = false) :
    DeleteGuarded ⟨ChangeType.delete, base ++ [n], category⟩ := by
  intro _
  refine ⟨by simp, ?_⟩
  simpa [List.getLastD_concat] using h

theorem collectDeleted_guarded :
    (∀ e : FSEntry, ∀ category base r,
      r ∈ collectDeletedFiles e category base → DeleteGuarded r) ∧
    (∀ ds : FSEntries, ∀ category base r,
      r ∈ collectDeletedEntries ds category base → DeleteGuarded r) := by
  refine FSEntry.mutualInduction ?_ ?_ ?_ ?_
  · intro c category base r hr
    rw [collectDeletedFiles_file] at hr
    exact absurd hr (List.not_mem_nil r)
  · intro es ih category base r hr
    rw [collectDeletedFiles_dir] at hr
    exact ih category base r hr
  · intro category base r hr
    rw [collectDeletedEntries_nil] at hr
    exact absurd hr (List.not_mem_nil r)
  · intro n e rest ihe ihr category base r hr
    rw [collectDeletedEntries_cons] at hr
    rcases List.mem_append.1 hr with hr | hr
    · by_cases hx : shouldExcludeFromDeletion n (base ++ [n]) = true
      · rw [if_pos hx] at hr
        exact absurd hr (List.not_mem_nil r)
      · rw [if_neg hx] at hr
        cases e with
        | dir inner =>
          exact ihe category (base ++ [n]) r hr
        | file c =>
          rw [List.mem_singleton.1 hr]
          exact deleteGuarded_record n base category (Bool.not_eq_true _ ▸ hx)
    · exact ihr category base r hr

theorem collectDeletions_guarded (ds : FSEntries) :
    ∀ src category base r, r ∈ collectDeletions src ds category base → DeleteGuarded r := by
  induction ds using FSEntries.consInduction with
  | nil =>
    intro src category base r hr
    rw [collectDeletions_nil] at hr
    exact absurd hr (List.not_mem_nil r)
  | cons n e rest ih =>
    intro src category base r hr
    rw [collectDeletions_cons] at hr
    rcases List.mem_append.1 hr with hr | hr
    · by_cases hx : shouldExcludeFromDeletion n (base ++ [n]) = true
      · rw [if_pos hx] at hr
        exact absurd hr (List.not_mem_nil r)
      · rw [if_neg hx] at hr
        by_cases hs : (lookupIn src n).isSome = true
        · rw [if_pos hs] at hr
          exact absurd hr (List.not_mem_nil r)
        · rw [if_neg hs] at hr
          cases e with
          | dir inner =>
            exact collectDeleted_guarded.1 (FSEntry.dir inner) category (base ++ [n]) r hr
          | file c =>
            rw [List.mem_singleton.1 hr]
            exact deleteGuarded_record n base category (Bool.not_eq_true _ ▸ hx)
    · exact ih src category base r hr

theorem deletionPart_guarded (src dest : Option FSEntry) (category : String)
    (base : List String) (chk : Bool) (r : FileChange)
    (hr : r ∈ deletionPart src dest category base chk) : DeleteGuarded r := by
  rcases mem_deletionPart src dest category base chk hr with ⟨ds, _, _, hr⟩
  exact collectDeletions_guarded ds src category base r hr

theorem collectEntry_guarded :
    (∀ e : FSEntry, ∀ dest category base chk r,
      r ∈ collectEntryChanges e dest category base chk → DeleteGuarded r) ∧
    (∀ es : FSEntries, ∀ dest category base chk r,
      r ∈ collectFromTemplate es dest category base chk → DeleteGuarded r) := by
  refine FSEntry.mutualInduction ?_ ?_ ?_ ?_
  · intro c dest category base chk r hr
    rw [collectEntryChanges_eq] at hr
    rcases List.mem_append.1 hr with hr | hr
    · exact absurd hr (List.not_mem_nil r)
    · exact deletionPart_guarded _ dest category base chk r hr
  · intro es ih dest category base chk r hr
    rw [collectEntryChanges_eq] at hr
    rcases List.mem_append.1 hr with hr | hr
    · exact ih dest category base chk r hr
    · exact deletionPart_guarded _ dest category base chk r hr
  · intro dest category base chk r hr
    rw [collectFromTemplate_nil] at hr
    exact absurd hr (List.not_mem_nil r)
  · intro n e rest ihe ihr dest category base chk r hr
    rw [collectFromTemplate_cons] at hr
    rcases List.mem_append.1 hr with hr | hr
    · cases e with
      | dir inner =>
        exact ihe (lookupIn dest n) category (base ++ [n]) chk r hr
      | file c =>
        have hnd : r.type ≠ ChangeType.delete := by
          by_cases h1 : (lookupIn dest n).isSome = false
          · rw [if_pos h1] at hr
            rw [List.mem_singleton.1 hr]
            intro h; exact ChangeType.noConfusion h
          · rw [if_neg h1] at hr
            by_cases h2 : compareFiles (some (FSEntry.file c)) (lookupIn dest n) = false
            · rw [if_pos h2] at hr
              rw [List.mem_singleton.1 hr]
              intro h; exact ChangeType.noConfusion h
            · rw [if_neg h2] at hr
              exact absurd hr (List.not_mem_nil r)
        intro h
        exact absurd h hnd
    · exact ihr dest category base chk r hr

/-- C1 (amended): every Delete record the collectors produce passes the
exclusion guard — its file name matches no exclusion token, and its
relative path neither equals nor is nested under any token.  (The
original claim's further promise — that nothing nested under a
directory merely *named* like a token is ever deleted — fails when that
directory also exists in the template at a deeper base path; see the
counterexample.) -/
theorem C1_delete_respects_exclusions (src dest : Option FSEntry) (category : String)
    (base : List String) (chk : Bool) (r : FileChange)
    (hr : r ∈ collectFileChanges src dest category base chk)
    (hdel : r.type = ChangeType.delete) :
    r.relativePath ≠ [] ∧
    shouldExcludeFromDeletion (r.relativePath.getLastD "") r.relativePath = false := by
  cases src with
  | some s =>
    rw [collectFileChanges_some] at hr
    exact collectEntry_guarded.1 s dest category base chk r hr hdel
  | none =>
    rw [collectFileChanges_none] at hr
    exact deletionPart_guarded none dest category base chk r hr hdel

/-- C1 witness: the guard theorem applied to a concrete Delete record
(a stale project file in a non-excluded location). -/
theorem C1_delete_respects_exclusions_witness :
    (⟨ChangeType.delete, ["services", "old.txt"], "services"⟩ : FileChange) ∈
      collectFileChanges (some (FSEntry.dir FSEntries.nil))
        (some (FSEntry.dir (FSEntries.cons "old.txt" (FSEntry.file "x") FSEntries.nil)))
        "services" ["services"] true ∧
    (["services", "old.txt"] : List String) ≠ [] ∧
    shouldExcludeFromDeletion "old.txt" ["services", "old.txt"] = false := by
  refine ⟨by decide, ?_⟩
  have h := C1_delete_respects_exclusions (some (FSEntry.dir FSEntries.nil))
    (some (FSEntry.dir (FSEntries.cons "old.txt" (FSEntry.file "x") FSEntries.nil)))
    "services" ["services"] true ⟨ChangeType.delete, ["services", "old.txt"], "services"⟩
    (by decide) rfl
  exact h

/-- C1 counterexample: a `node_modules` directory that exists in both
the template and the project (at a non-empty base path) does not shield
its contents — the collector emits a Delete for
`services/node_modules/f.txt`, a file nested under a path whose name
matches the exclusion token `node_modules`. -/
theorem C1_counterexample :
    (⟨ChangeType.delete, ["services", "node_modules", "f.txt"], "services"⟩ : FileChange) ∈
      collectFileChanges (some c1Template) (some c1Project) "services" ["services"] true ∧
    "node_modules" ∈ EXCLUDE_FROM_DELETION ∧
    (["services", "node_modules", "f.txt"] : List String) =
      ["services", "node_modules"] ++ ["f.txt"] ∧
    (["services", "node_modules"] : List String).getLastD "" = "node_modules" := by
  refine ⟨by decide, by decide, by decide, by decide⟩

/-! Path-resolution equations for the apply model. -/

theorem entryAt_nilPath (e : FSEntry) : entryAt e [] = some e := rfl

theorem entryAt_dir_cons (es : FSEntries) (n : String) (p : List String) :
    entryAt (FSEntry.dir es) (n :: p) =
      match lookupEntries n es with
      | some x => entryAt x p
      | none => none := by
  cases h : lookupEntries n es <;> simp [entryAt, h]

theorem entryAt_file_cons (c : String) (n : String) (p : List String) :
    entryAt (FSEntry.file c) (n :: p) = none := rfl

theorem fileAt_dir_cons (es : FSEntries) (n : String) (p : List String) :
    fileAt (FSEntry.dir es) (n :: p) =
      match lookupEntries n es with
      | some x => fileAt x p
      | none => none := by
  unfold fileAt
  rw [entryAt_dir_cons]
  cases lookupEntries n es <;> rfl

theorem isDirAt_dir_cons (es : FSEntries) (n : String) (p : List String) :
    isDirAt (FSEntry.dir es) (n :: p) =
      match lookupEntries n es with
      | some x => isDirAt x p
      | none => false := by
  unfold isDirAt
  rw [entryAt_dir_cons]
  cases lookupEntries n es <;> rfl

theorem isEmptyDirAt_dir_cons (es : FSEntries) (n : String) (p : List String) :
    isEmptyDirAt (FSEntry.dir es) (n :: p) =
      match lookupEntries n es with
      | some x => isEmptyDirAt x p
      | none => false := by
  unfold isEmptyDirAt
  rw [entryAt_dir_cons]
  cases lookupEntries n es <;> rfl

/-! Listing-level lookup lemmas. -/

theorem lookupEntries_setEntry_self (n : String) (v : FSEntry) (es : FSEntries) :
    lookupEntries n (setEntry n v es) = some v := by
  induction es using FSEntries.consInduction with
  | nil => simp [setEntry, lookupEntries]
  | cons m e rest ih =>
    by_cases h : m = n
    · rw [setEntry, if_pos h, lookupEntries, if_pos h]
    · rw [setEntry, if_neg h, lookupEntries, if_neg h]
      exact ih

theorem lookupEntries_setEntry_ne (n m : String) (v : FSEntry) (es : FSEntries)
    (h : m ≠ n) : lookupEntries m (setEntry n v es) = lookupEntries m es := by
  induction es using FSEntries.consInduction with
  | nil =>
    have hnm : ¬ n = m := fun hx => h hx.symm
    simp [setEntry, lookupEntries, hnm]
  | cons m2 e rest ih =>
    by_cases h2 : m2 = n
    · rw [setEntry, if_pos h2, lookupEntries, lookupEntries]
      have : ¬ m2 = m := fun hx => h (hx ▸ h2 : m = n)
      rw [if_neg this, if_neg this]
    · rw [setEntry, if_neg h2, lookupEntries, lookupEntries]
      by_cases h3 : m2 = m
      · rw [if_pos h3, if_pos h3]
      · rw [if_neg h3, if_neg h3]
        exact ih

theorem lookupEntries_removeEntries_ne (n m : String) (es : FSEntries) (h : m ≠ n) :
    lookupEntries m (removeEntries n es) = lookupEntries m es := by
  induction es using FSEntries.consInduction with
  | nil => rfl
  | cons m2 e rest ih =>
    by_cases h2 : m2 = n
    · rw [removeEntries, if_pos h2, lookupEntries]
      have : ¬ m2 = m := fun hx => h (hx ▸ h2 : m = n)
      rw [if_neg this]
    · rw [removeEntries, if_neg h2, lookupEntries, lookupEntries]
      by_cases h3 : m2 = m
      · rw [if_pos h3, if_pos h3]
      · rw [if_neg h3, if_neg h3]
        exact ih

theorem lookupEntries_none_of_not_contains (n : String) (es : FSEntries)
    (h : containsName n es = false) : lookupEntries n es = none := by
  induction es using FSEntries.consInduction with
  | nil => rfl
  | cons m e rest ih =>
    rw [containsName, Bool.or_eq_false_iff] at h
    rw [lookupEntries, if_neg (by simpa using h.1)]
    exact ih h.2

theorem nodupEntries_lookup (es : FSEntries) (h : nodupEntries es = true) (n : String)
    (x : FSEntry) (hx : lookupEntries n es = some x) : nodupDeep x = true := by
  induction es using FSEntries.consInduction with
  | nil => exact absurd hx (by simp [lookupEntries])
  | cons m e rest ih =>
    rw [nodupEntries, Bool.and_eq_true, Bool.and_eq_true] at h
    rw [lookupEntries] at hx
    by_cases hm : m = n
    · rw [if_pos hm] at hx
      rw [← Option.some.inj hx]
      exact h.1.2
    · rw [if_neg hm] at hx
      exact ih h.2 hx

/-! Equations and lemmas for `cleanEmptyDirectories`. -/

theorem cleanEmptyDirectories_file (c : String) :
    cleanEmptyDirectories (FSEntry.file c) = FSEntry.file c := rfl

theorem cleanEmptyDirectories_dir (es : FSEntries) :
    cleanEmptyDirectories (FSEntry.dir es) = FSEntry.dir (cleanEntries es) := rfl

theorem cleanEntries_nil : cleanEntries FSEntries.nil = FSEntries.nil := rfl

theorem cleanEntries_cons_file (n : String) (c : String) (rest : FSEntries) :
    cleanEntries (FSEntries.cons n (FSEntry.file c) rest) =
      FSEntries.cons n (FSEntry.file c) (cleanEntries rest) := rfl

theorem cleanEntries_cons_dir (n : String) (inner : FSEntries) (rest : FSEntries) :
    cleanEntries (FSEntries.cons n (FSEntry.dir inner) rest) =
      match cleanEntries inner with
      | FSEntries.nil => cleanEntries rest
      | FSEntries.cons m e2 r2 =>
        FSEntries.cons n (FSEntry.dir (FSEntries.cons m e2 r2)) (cleanEntries rest) := rfl

theorem noEmptyDirsEntries_cons (n : String) (e : FSEntry) (rest : FSEntries) :
    noEmptyDirsEntries (FSEntries.cons n e rest) =
      ((match e with
        | FSEntry.file _ => true
        | FSEntry.dir FSEntries.nil => false
        | FSEntry.dir (FSEntries.cons m2 e2 r2) =>
          noEmptyDirsEntries (FSEntries.cons m2 e2 r2)) && noEmptyDirsEntries rest) := by
  cases e with
  | file c => rfl
  | dir inner => cases inner <;> rfl

theorem clean_noEmptyDirs :
    (∀ e : FSEntry, noEmptyDirsBelow (cleanEmptyDirectories e) = true) ∧
    (∀ es : FSEntries, noEmptyDirsEntries (cleanEntries es) = true) := by
  refine FSEntry.mutualInduction ?_ ?_ ?_ ?_
  · intro c; rfl
  · intro es ih
    rw [cleanEmptyDirectories_dir]
    exact ih
  · rfl
  · intro n e rest ihe ihr
    cases e with
    | file c =>
      rw [cleanEntries_cons_file]
      simpa using ihr
    | dir inner =>
      rw [cleanEntries_cons_dir]
      cases hcl : cleanEntries inner with
      | nil => exact ihr
      | cons m e2 r2 =>
        rw [cleanEmptyDirectories_dir, hcl] at ihe
        show ((match FSEntry.dir (FSEntries.cons m e2 r2) with
          | FSEntry.file _ => true
          | FSEntry.dir FSEntries.nil => false
          | FSEntry.dir _ => noEmptyDirsEntries (FSEntries.cons m e2 r2)) &&
            noEmptyDirsEntries (cleanEntries rest)) = true
        simpa using And.intro ihe ihr

theorem noEmptyDirsEntries_lookup (es : FSEntries) (h : noEmptyDirsEntries es = true)
    (n : String) (x : FSEntry) (hx : lookupEntries n es = some x) :
    noEmptyDirsBelow x = true ∧ x ≠ FSEntry.dir FSEntries.nil := by
  induction es using FSEntries.consInduction with
  | nil => exact absurd hx (by simp [lookupEntries])
  | cons m e rest ih =>
    rw [noEmptyDirsEntries_cons, Bool.and_eq_true] at h
    rw [lookupEntries] at hx
    by_cases hm : m = n
    · rw [if_pos hm] at hx
      rw [← Option.some.inj hx]
      cases e with
      | file c => exact ⟨rfl, fun hc => nomatch hc⟩
      | dir inner =>
        cases inner with
        | nil => exact absurd h.1 (by simp)
        | cons m2 e2 r2 =>
          refine ⟨by simpa using h.1, fun hc => ?_⟩
          have := FSEntry.dir.inj hc
          exact nomatch this
    · rw [if_neg hm] at hx
      exact ih h.2 hx

theorem noEmptyDirs_no_emptyDirAt (p : List String) :
    ∀ e : FSEntry, noEmptyDirsBelow e = true → p ≠ [] → isEmptyDirAt e p = false := by
  induction p with
  | nil => intro e _ hne; exact absurd rfl hne
  | cons n p' ih =>
    intro e he _
    cases e with
    | file c => rfl
    | dir es =>
      rw [isEmptyDirAt_dir_cons]
      cases hl : lookupEntries n es with
      | none => rfl
      | some x =>
        have hx := noEmptyDirsEntries_lookup es he n x hl
        cases hp : p' with
        | nil =>
          show isEmptyDirAt x [] = false
          cases x with
          | file c => rfl
          | dir inner =>
            cases inner with
            | nil => exact absurd rfl hx.2
            | cons m e2 r2 => rfl
        | cons m p'' =>
          rw [← hp]
          exact ih x hx.1 (hp ▸ List.cons_ne_nil m p'')

theorem containsName_cleanEntries (n : String) (es : FSEntries)
    (h : containsName n (cleanEntries es) = true) : containsName n es = true := by
  induction es using FSEntries.consInduction with
  | nil => exact absurd h (by simp [cleanEntries_nil, containsName])
  | cons m e rest ih =>
    cases e with
    | file c =>
      rw [cleanEntries_cons_file, containsName, Bool.or_eq_true] at h
      rw [containsName, Bool.or_eq_true]
      exact h.imp id ih
    | dir inner =>
      rw [cleanEntries_cons_dir] at h
      cases hcl : cleanEntries inner with
      | nil =>
        rw [hcl] at h
        rw [containsName, Bool.or_eq_true]
        exact Or.inr (ih h)
      | cons m2 e2 r2 =>
        rw [hcl] at h
        rw [containsName, Bool.or_eq_true] at h
        rw [containsName, Bool.or_eq_true]
        exact h.imp id ih

theorem lookupEntries_cleanEntries (es : FSEntries) (h : nodupEntries es = true)
    (n : String) :
    lookupEntries n (cleanEntries es) =
      match lookupEntries n es with
      | some (FSEntry.dir inner) =>
        (match cleanEntries inner with
         | FSEntries.nil => none
         | FSEntries.cons m2 e2 r2 => some (FSEntry.dir (FSEntries.cons m2 e2 r2)))
      | other => other := by
  induction es using FSEntries.consInduction with
  | nil => rfl
  | cons m e rest ih =>
    rw [nodupEntries, Bool.and_eq_true, Bool.and_eq_true] at h
    obtain ⟨⟨hc, hde⟩, hrest⟩ := h
    cases e with
    | file c =>
      rw [cleanEntries_cons_file]
      by_cases hm : m = n
      · rw [lookupEntries, if_pos hm, lookupEntries, if_pos hm]
      · rw [lookupEntries, if_neg hm, lookupEntries, if_neg hm]
        exact ih hrest
    | dir inner =>
      rw [cleanEntries_cons_dir]
      cases hcl : cleanEntries inner with
      | nil =>
        by_cases hm : m = n
        · subst hm
          have hcn : containsName m (cleanEntries rest) = false := by
            cases hcc : containsName m (cleanEntries rest) with
            | false => rfl
            | true =>
              rw [containsName_cleanEntries m rest hcc] at hc
              exact absurd hc (by simp)
          rw [lookupEntries_none_of_not_contains m (cleanEntries rest) hcn,
            lookupEntries, if_pos rfl]
          simp only [hcl]
        · rw [lookupEntries, if_neg hm]
          exact ih hrest
      | cons m2 e2 r2 =>
        by_cases hm : m = n
        · rw [lookupEntries, if_pos hm, lookupEntries, if_pos hm]
          simp only [hcl]
        · rw [lookupEntries, if_neg hm, lookupEntries, if_neg hm]
          exact ih hrest

theorem clean_to_nil_no_files :
    (∀ e : FSEntry, cleanEmptyDirectories e = FSEntry.dir FSEntries.nil →
      ∀ p, fileAt e p = none) ∧
    (∀ es : FSEntries, cleanEntries es = FSEntries.nil →
      ∀ n x, lookupEntries n es = some x → ∀ p, fileAt x p = none) := by
  refine FSEntry.mutualInduction ?_ ?_ ?_ ?_
  · intro c h
    exact absurd h (fun hc => nomatch hc)
  · intro es ih h p
    rw [cleanEmptyDirectories_dir] at h
    have hnil : cleanEntries es = FSEntries.nil := FSEntry.dir.inj h
    cases p with
    | nil => rfl
    | cons n p' =>
      rw [fileAt_dir_cons]
      cases hl : lookupEntries n es with
      | none => rfl
      | some x => exact ih hnil n x hl p'
  · intro h n x hx
    exact absurd hx (by simp [lookupEntries])
  · intro n e rest ihe ihr h n' x hx p
    cases e with
    | file c =>
      rw [cleanEntries_cons_file] at h
      exact absurd h (fun hc => nomatch hc)
    | dir inner =>
      rw [cleanEntries_cons_dir] at h
      cases hcl : cleanEntries inner with
      | nil =>
        rw [hcl] at h
        rw [lookupEntries] at hx
        by_cases hm : n = n'
        · rw [if_pos hm] at hx
          rw [← Option.some.inj hx]
          exact ihe (by rw [cleanEmptyDirectories_dir, hcl]) p
        · rw [if_neg hm] at hx
          exact ihr h n' x hx p
      | cons m2 e2 r2 =>
        rw [hcl] at h
        exact absurd h (fun hc => nomatch hc)

theorem clean_preserves_files (p : List String) :
    ∀ e : FSEntry, nodupDeep e = true →
      fileAt (cleanEmptyDirectories e) p = fileAt e p := by
  induction p with
  | nil =>
    intro e _
    cases e with
    | file c => rfl
    | dir es => rfl
  | cons n p' ih =>
    intro e hn
    cases e with
    | file c => rfl
    | dir es =>
      rw [cleanEmptyDirectories_dir, fileAt_dir_cons, fileAt_dir_cons,
        lookupEntries_cleanEntries es hn n]
      cases horig : lookupEntries n es with
      | none => rfl
      | some x =>
        cases x with
        | file c => rfl
        | dir inner =>
          cases hcl : cleanEntries inner with
          | nil =>
            simp only [hcl]
            exact (clean_to_nil_no_files.1 (FSEntry.dir inner)
              (by rw [cleanEmptyDirectories_dir, hcl]) p').symm
          | cons m2 e2 r2 =>
            simp only [hcl]
            have hinner : nodupDeep (FSEntry.dir inner) = true :=
              nodupEntries_lookup es hn n (FSEntry.dir inner) horig
            have := ih (FSEntry.dir inner) hinner
            rw [cleanEmptyDirectories_dir, hcl] at this
            exact this

/-- C7: the empty-directory cleanup never touches file contents, leaves
no directory with zero entries anywhere below the root, and runs only
once, after the whole batch (`applyPhase` is the loop followed by one
cleanup pass); deleting the only two files under `a/b/c` removes
`a/b/c` and then `a/b`, while `a` survives with its other content. -/
theorem C7_directory_collapse :
    (∀ e : FSEntry, nodupDeep e = true → ∀ p,
      fileAt (cleanEmptyDirectories e) p = fileAt e p) ∧
    (∀ (e : FSEntry) (p : List String), p ≠ [] →
      isEmptyDirAt (cleanEmptyDirectories e) p = false) ∧
    applyPhase collapseProject collapseBatch ["scripts"] =
      some (FSEntry.dir (FSEntries.cons "a"
        (FSEntry.dir (FSEntries.cons "other.txt" (FSEntry.file "keep") FSEntries.nil))
        FSEntries.nil)) := by
  refine ⟨fun e hn p => clean_preserves_files p e hn, ?_, by decide⟩
  intro e p hp
  exact noEmptyDirs_no_emptyDirAt p (cleanEmptyDirectories e) (clean_noEmptyDirs.1 e) hp

/-- C7 witness: the cleanup lemmas applied at the collapse scenario. -/
theorem C7_directory_collapse_witness :
    fileAt (cleanEmptyDirectories collapseProject) ["a", "other.txt"] =
      fileAt collapseProject ["a", "other.txt"] ∧
    isEmptyDirAt (cleanEmptyDirectories cleanupProject) ["services", "emptyd"] = false := by
  exact ⟨C7_directory_collapse.1 collapseProject (by decide) ["a", "other.txt"],
    C7_directory_collapse.2.1 cleanupProject ["services", "emptyd"] (by decide)⟩

/-! Writes never demote an existing directory. -/

theorem isDirAt_file (c : String) (p : List String) :
    isDirAt (FSEntry.file c) p = false := by
  cases p <;> rfl

theorem isDirAt_setEntry_ne (es : FSEntries) (n m : String) (v : FSEntry)
    (q : List String) (hm : m ≠ n) :
    isDirAt (FSEntry.dir (setEntry n v es)) (m :: q) =
      isDirAt (FSEntry.dir es) (m :: q) := by
  rw [isDirAt_dir_cons, isDirAt_dir_cons, lookupEntries_setEntry_ne n m v es hm]

theorem writeAt_nilPath (e : FSEntry) (c : String) : writeAt e [] c = none := by
  cases e <;> rfl

theorem writeAt_file (a : String) (d : List String) (c : String) :
    writeAt (FSEntry.file a) d c = none := by
  cases d with
  | nil => rfl
  | cons n d' => cases d' <;> rfl

theorem writeAt_single_dirTarget (es : FSEntries) (n c : String) (x : FSEntries)
    (hl : lookupEntries n es = some (FSEntry.dir x)) :
    writeAt (FSEntry.dir es) [n] c = none := by
  simp [writeAt, hl]

theorem writeAt_single_fileTarget (es : FSEntries) (n c a : String)
    (hl : lookupEntries n es = some (FSEntry.file a)) :
    writeAt (FSEntry.dir es) [n] c =
      some (FSEntry.dir (setEntry n (FSEntry.file c) es)) := by
  simp [writeAt, hl]

theorem writeAt_single_noTarget (es : FSEntries) (n c : String)
    (hl : lookupEntries n es = none) :
    writeAt (FSEntry.dir es) [n] c =
      some (FSEntry.dir (setEntry n (FSEntry.file c) es)) := by
  simp [writeAt, hl]

theorem writeAt_deep_dir (es : FSEntries) (n m0 c : String) (rest : List String)
    (inner : FSEntries) (hl : lookupEntries n es = some (FSEntry.dir inner)) :
    writeAt (FSEntry.dir es) (n :: m0 :: rest) c =
      (writeAt (FSEntry.dir inner) (m0 :: rest) c).map
        (fun c2 => FSEntry.dir (setEntry n c2 es)) := by
  simp [writeAt, hl]

theorem writeAt_deep_file (es : FSEntries) (n m0 c a : String) (rest : List String)
    (hl : lookupEntries n es = some (FSEntry.file a)) :
    writeAt (FSEntry.dir es) (n :: m0 :: rest) c = none := by
  simp [writeAt, hl]

theorem writeAt_deep_none (es : FSEntries) (n m0 c : String) (rest : List String)
    (hl : lookupEntries n es = none) :
    writeAt (FSEntry.dir es) (n :: m0 :: rest) c =
      (writeAt (FSEntry.dir FSEntries.nil) (m0 :: rest) c).map
        (fun c2 => FSEntry.dir (setEntry n c2 es)) := by
  simp [writeAt, hl]

theorem writeAt_preserves_isDirAt (d : List String) :
    ∀ (e e' : FSEntry) (c : String), writeAt e d c = some e' →
      ∀ p, isDirAt e p = true → isDirAt e' p = true := by
  induction d with
  | nil =>
    intro e e' c hw
    rw [writeAt_nilPath] at hw
    exact absurd hw (by simp)
  | cons n d' ih =>
    intro e e' c hw p hd
    cases e with
    | file a => rw [writeAt_file] at hw; exact absurd hw (by simp)
    | dir es =>
      cases d' with
      | nil =>
        cases hl : lookupEntries n es with
        | some x =>
          cases x with
          | dir inner =>
            rw [writeAt_single_dirTarget es n c inner hl] at hw
            exact absurd hw (by simp)
          | file a =>
            rw [writeAt_single_fileTarget es n c a hl] at hw
            simp only [Option.some.injEq] at hw
            subst hw
            cases p with
            | nil => rfl
            | cons m q =>
              by_cases hm : m = n
              · subst hm
                rw [isDirAt_dir_cons] at hd
                simp [hl, isDirAt_file] at hd
              · rw [isDirAt_setEntry_ne es n m (FSEntry.file c) q hm]
                exact hd
        | none =>
          rw [writeAt_single_noTarget es n c hl] at hw
          simp only [Option.some.injEq] at hw
          subst hw
          cases p with
          | nil => rfl
          | cons m q =>
            by_cases hm : m = n
            · subst hm
              rw [isDirAt_dir_cons] at hd
              simp [hl] at hd
            · rw [isDirAt_setEntry_ne es n m (FSEntry.file c) q hm]
              exact hd
      | cons m0 rest =>
        cases hl : lookupEntries n es with
        | some x =>
          cases x with
          | file a =>
            rw [writeAt_deep_file es n m0 c a rest hl] at hw
            exact absurd hw (by simp)
          | dir inner =>
            rw [writeAt_deep_dir es n m0 c rest inner hl] at hw
            cases hw2 : writeAt (FSEntry.dir inner) (m0 :: rest) c with
            | none => rw [hw2] at hw; exact absurd hw (by simp)
            | some c2 =>
              rw [hw2] at hw
              simp at hw
              subst hw
              cases p with
              | nil => rfl
              | cons m q =>
                by_cases hm : m = n
                · subst hm
                  rw [isDirAt_dir_cons] at hd
                  simp only [hl] at hd
                  rw [isDirAt_dir_cons, lookupEntries_setEntry_self]
                  exact ih (FSEntry.dir inner) c2 c hw2 q hd
                · rw [isDirAt_setEntry_ne es n m c2 q hm]
                  exact hd
        | none =>
          rw [writeAt_deep_none es n m0 c rest hl] at hw
          cases hw2 : writeAt (FSEntry.dir FSEntries.nil) (m0 :: rest) c with
          | none => rw [hw2] at hw; exact absurd hw (by simp)
          | some c2 =>
            rw [hw2] at hw
            simp at hw
            subst hw
            cases p with
            | nil => rfl
            | cons m q =>
              by_cases hm : m = n
              · subst hm
                rw [isDirAt_dir_cons] at hd
                simp [hl] at hd
              · rw [isDirAt_setEntry_ne es n m c2 q hm]
                exact hd

theorem applyChanges_no_delete_preserves_dirs (cs : List ApplyChange) :
    ∀ (root t1 : FSEntry) (sel : List String),
      applyChanges root cs sel = some (t1, 0) →
      ∀ p, isDirAt root p = true → isDirAt t1 p = true := by
  induction cs with
  | nil =>
    intro root t1 sel h p hd
    rw [applyChanges] at h
    obtain ⟨h1, _⟩ := Prod.mk.injEq .. ▸ Option.some.inj h
    exact h1 ▸ hd
  | cons c cs ih =>
    intro root t1 sel h p hd
    rw [applyChanges] at h
    by_cases hs : c.category ∈ sel
    · rw [if_pos hs] at h
      cases ht : c.type with
      | delete =>
        rw [ht] at h
        by_cases he : existsAt root c.dest = true
        · rw [if_pos he] at h
          cases hrec : applyChanges (removeAt root c.dest) cs sel with
          | none => rw [hrec] at h; exact absurd h (by simp)
          | some r =>
            rw [hrec] at h
            have : r.2 + 1 = 0 := by
              have := Option.some.inj h
              exact congrArg Prod.snd this
            exact absurd this (by simp)
        · rw [if_neg he] at h
          exact ih root t1 sel h p hd
      | add =>
        rw [ht] at h
        cases hw : writeAt root c.dest c.srcContent with
        | none => rw [hw] at h; exact absurd h (by simp)
        | some r =>
          rw [hw] at h
          exact ih r t1 sel h p
            (writeAt_preserves_isDirAt c.dest root r c.srcContent hw p hd)
      | modify =>
        rw [ht] at h
        cases hw : writeAt root c.dest c.srcContent with
        | none => rw [hw] at h; exact absurd h (by simp)
        | some r =>
          rw [hw] at h
          exact ih r t1 sel h p
            (writeAt_preserves_isDirAt c.dest root r c.srcContent hw p hd)
    · rw [if_neg hs] at h
      exact ih root t1 sel h p hd

/-- C9: when at least one Delete was applied, the cleanup pass runs and
removes every directory that is empty at that moment — anywhere under
the project root, including directories that were empty before the run
and directories of unapproved categories; when no Delete was applied,
no directory is removed at all. -/
theorem C9_cleanup_trigger_scope :
    (∀ (root : FSEntry) (cs : List ApplyChange) (sel : List String) (t1 : FSEntry),
      applyChanges root cs sel = some (t1, 0) →
      applyPhase root cs sel = some t1 ∧
      ∀ p, isDirAt root p = true → isDirAt t1 p = true) ∧
    (∀ (root : FSEntry) (cs : List ApplyChange) (sel : List String) (t1 : FSEntry)
      (k : Nat), applyChanges root cs sel = some (t1, k) → k > 0 →
      applyPhase root cs sel = some (cleanEmptyDirectories t1) ∧
      ∀ p, p ≠ [] → isEmptyDirAt (cleanEmptyDirectories t1) p = false) ∧
    applyPhase cleanupProject
        [⟨ChangeType.delete, ["config", "f.txt"], "", "config"⟩] ["config"] =
      some (FSEntry.dir FSEntries.nil) ∧
    applyPhase cleanupProject
        [⟨ChangeType.add, ["config", "g.txt"], "y", "config"⟩] ["config"] =
      some (FSEntry.dir (FSEntries.cons "services"
        (FSEntry.dir (FSEntries.cons "emptyd" (FSEntry.dir FSEntries.nil) FSEntries.nil))
        (FSEntries.cons "config"
          (FSEntry.dir (FSEntries.cons "f.txt" (FSEntry.file "x")
            (FSEntries.cons "g.txt" (FSEntry.file "y") FSEntries.nil)))
          FSEntries.nil))) := by
  refine ⟨?_, ?_, by decide, by decide⟩
  · intro root cs sel t1 h
    refine ⟨?_, applyChanges_no_delete_preserves_dirs cs root t1 sel h⟩
    rw [applyPhase, h]
    rfl
  · intro root cs sel t1 k h hk
    constructor
    · rw [applyPhase, h]
      simp [hk]
    · intro p hp
      exact noEmptyDirs_no_emptyDirAt p (cleanEmptyDirectories t1)
        (clean_noEmptyDirs.1 t1) hp

/-- C9 witness: the two quantified conjuncts applied to concrete runs
(an add-only batch, and a batch with one applied delete). -/
theorem C9_cleanup_trigger_scope_witness :
    (applyPhase cleanupProject
        [⟨ChangeType.add, ["config", "g.txt"], "y", "config"⟩] ["config"]).isSome = true ∧
    isEmptyDirAt
      (cleanEmptyDirectories (FSEntry.dir (FSEntries.cons "services"
        (FSEntry.dir (FSEntries.cons "emptyd" (FSEntry.dir FSEntries.nil) FSEntries.nil))
        FSEntries.nil))) ["services"] = false := by
  constructor
  · have h := C9_cleanup_trigger_scope.1 cleanupProject
      [⟨ChangeType.add, ["config", "g.txt"], "y", "config"⟩] ["config"]
      (FSEntry.dir (FSEntries.cons "services"
        (FSEntry.dir (FSEntries.cons "emptyd" (FSEntry.dir FSEntries.nil) FSEntries.nil))
        (FSEntries.cons "config"
          (FSEntry.dir (FSEntries.cons "f.txt" (FSEntry.file "x")
            (FSEntries.cons "g.txt" (FSEntry.file "y") FSEntries.nil)))
          FSEntries.nil))) (by decide)
    rw [h.1]
    rfl
  · have h := C9_cleanup_trigger_scope.2.1
      (FSEntry.dir (FSEntries.cons "services"
        (FSEntry.dir (FSEntries.cons "emptyd" (FSEntry.dir FSEntries.nil) FSEntries.nil))
        (FSEntries.cons "f.txt" (FSEntry.file "x") FSEntries.nil)))
      [⟨ChangeType.delete, ["f.txt"], "", "config"⟩] ["config"]
      (FSEntry.dir (FSEntries.cons "services"
        (FSEntry.dir (FSEntries.cons "emptyd" (FSEntry.dir FSEntries.nil) FSEntries.nil))
        FSEntries.nil)) 1 (by decide) (by decide)
    exact h.2 ["services"] (by decide)

/-! Frame lemmas: an apply step only touches paths at or below its
destination. -/

theorem fileAt_file_nil (a : String) : fileAt (FSEntry.file a) [] = some a := rfl

theorem fileAt_file_cons (a m : String) (q : List String) :
    fileAt (FSEntry.file a) (m :: q) = none := rfl

theorem fileAt_dir_nilPath (es : FSEntries) : fileAt (FSEntry.dir es) [] = none := rfl

theorem fileAt_dirnil (q : List String) :
    fileAt (FSEntry.dir FSEntries.nil) q = none := by
  cases q with
  | nil => rfl
  | cons m q2 => rw [fileAt_dir_cons]; rfl

theorem fileAt_setEntry_ne (es : FSEntries) (n m : String) (v : FSEntry)
    (q : List String) (hm : m ≠ n) :
    fileAt (FSEntry.dir (setEntry n v es)) (m :: q) =
      fileAt (FSEntry.dir es) (m :: q) := by
  rw [fileAt_dir_cons, fileAt_dir_cons, lookupEntries_setEntry_ne n m v es hm]

theorem removeAt_nilPath (e : FSEntry) : removeAt e [] = e := rfl

theorem removeAt_file (a : String) (d : List String) :
    removeAt (FSEntry.file a) d = FSEntry.file a := by
  cases d with
  | nil => rfl
  | cons n d' => cases d' <;> rfl

theorem removeAt_single (es : FSEntries) (n : String) :
    removeAt (FSEntry.dir es) [n] = FSEntry.dir (removeEntries n es) := rfl

theorem removeAt_deep_some (es : FSEntries) (n m0 : String) (rest : List String)
    (x : FSEntry) (hl : lookupEntries n es = some x) :
    removeAt (FSEntry.dir es) (n :: m0 :: rest) =
      FSEntry.dir (setEntry n (removeAt x (m0 :: rest)) es) := by
  simp [removeAt, hl]

theorem removeAt_deep_none (es : FSEntries) (n m0 : String) (rest : List String)
    (hl : lookupEntries n es = none) :
    removeAt (FSEntry.dir es) (n :: m0 :: rest) = FSEntry.dir es := by
  simp [removeAt, hl]

theorem isPrefixOf_cons_cons (n m : String) (d q : List String) :
    (n :: d).isPrefixOf (m :: q) = ((n == m) && d.isPrefixOf q) := rfl

theorem isPrefixOf_self (l : List String) : l.isPrefixOf l = true := by
  induction l with
  | nil => rfl
  | cons n t ih => rw [isPrefixOf_cons_cons]; simp [ih]

theorem removeAt_frame (d : List String) :
    ∀ (e : FSEntry) (p : List String), d.isPrefixOf p = false →
      fileAt (removeAt e d) p = fileAt e p := by
  induction d with
  | nil =>
    intro e p hp
    exact absurd hp (by simp [List.isPrefixOf])
  | cons n d' ih =>
    intro e p hp
    cases e with
    | file a => rw [removeAt_file]
    | dir es =>
      cases d' with
      | nil =>
        rw [removeAt_single]
        cases p with
        | nil => rfl
        | cons m q =>
          rw [isPrefixOf_cons_cons] at hp
          have hm : ¬ m = n := by
            intro hme
            subst hme
            simp [List.isPrefixOf] at hp
          rw [fileAt_dir_cons, fileAt_dir_cons,
            lookupEntries_removeEntries_ne n m es hm]
      | cons m0 rest =>
        cases hl : lookupEntries n es with
        | none => rw [removeAt_deep_none es n m0 rest hl]
        | some x =>
          rw [removeAt_deep_some es n m0 rest x hl]
          cases p with
          | nil => rfl
          | cons m q =>
            by_cases hm : m = n
            · subst hm
              rw [isPrefixOf_cons_cons] at hp
              simp only [beq_self_eq_true, Bool.true_and] at hp
              rw [fileAt_dir_cons, fileAt_dir_cons, lookupEntries_setEntry_self, hl]
              exact ih x q hp
            · rw [fileAt_setEntry_ne es n m _ q hm]

theorem writeAt_frame (d : List String) :
    ∀ (e e' : FSEntry) (c : String), writeAt e d c = some e' →
      ∀ p, p ≠ d → fileAt e' p = fileAt e p := by
  induction d with
  | nil =>
    intro e e' c hw
    rw [writeAt_nilPath] at hw
    exact absurd hw (by simp)
  | cons n d' ih =>
    intro e e' c hw p hp
    cases e with
    | file a => rw [writeAt_file] at hw; exact absurd hw (by simp)
    | dir es =>
      cases d' with
      | nil =>
        cases hl : lookupEntries n es with
        | some x =>
          cases x with
          | dir inner =>
            rw [writeAt_single_dirTarget es n c inner hl] at hw
            exact absurd hw (by simp)
          | file a =>
            rw [writeAt_single_fileTarget es n c a hl] at hw
            have he' : e' = FSEntry.dir (setEntry n (FSEntry.file c) es) :=
              (Option.some.inj hw).symm
            subst he'
            cases p with
            | nil => rfl
            | cons m q =>
              by_cases hm : m = n
              · subst hm
                cases q with
                | nil => exact absurd rfl hp
                | cons m2 q2 =>
                  rw [fileAt_dir_cons, fileAt_dir_cons, lookupEntries_setEntry_self, hl]
                  simp [fileAt_file_cons]
              · rw [fileAt_setEntry_ne es n m _ q hm]
        | none =>
          rw [writeAt_single_noTarget es n c hl] at hw
          have he' : e' = FSEntry.dir (setEntry n (FSEntry.file c) es) :=
            (Option.some.inj hw).symm
          subst he'
          cases p with
          | nil => rfl
          | cons m q =>
            by_cases hm : m = n
            · subst hm
              cases q with
              | nil => exact absurd rfl hp
              | cons m2 q2 =>
                rw [fileAt_dir_cons, fileAt_dir_cons, lookupEntries_setEntry_self, hl]
                simp [fileAt_file_cons]
            · rw [fileAt_setEntry_ne es n m _ q hm]
      | cons m0 rest =>
        cases hl : lookupEntries n es with
        | some x =>
          cases x with
          | file a =>
            rw [writeAt_deep_file es n m0 c a rest hl] at hw
            exact absurd hw (by simp)
          | dir inner =>
            rw [writeAt_deep_dir es n m0 c rest inner hl] at hw
            cases hw2 : writeAt (FSEntry.dir inner) (m0 :: rest) c with
            | none => rw [hw2] at hw; exact absurd hw (by simp)
            | some c2 =>
              rw [hw2] at hw
              simp at hw
              subst hw
              cases p with
              | nil => rfl
              | cons m q =>
                by_cases hm : m = n
                · subst hm
                  have hq : q ≠ m0 :: rest := fun hq => hp (by rw [hq])
                  rw [fileAt_dir_cons, fileAt_dir_cons, lookupEntries_setEntry_self, hl]
                  exact ih (FSEntry.dir inner) c2 c hw2 q hq
                · rw [fileAt_setEntry_ne es n m c2 q hm]
        | none =>
          rw [writeAt_deep_none es n m0 c rest hl] at hw
          cases hw2 : writeAt (FSEntry.dir FSEntries.nil) (m0 :: rest) c with
          | none => rw [hw2] at hw; exact absurd hw (by simp)
          | some c2 =>
            rw [hw2] at hw
            simp at hw
            subst hw
            cases p with
            | nil => rfl
            | cons m q =>
              by_cases hm : m = n
              · subst hm
                have hq : q ≠ m0 :: rest := fun hq => hp (by rw [hq])
                rw [fileAt_dir_cons, fileAt_dir_cons, lookupEntries_setEntry_self, hl]
                have hc2 : fileAt c2 q = none := by
                  rw [ih (FSEntry.dir FSEntries.nil) c2 c hw2 q hq]
                  exact fileAt_dirnil q
                simpa using hc2
              · rw [fileAt_setEntry_ne es n m c2 q hm]

/-! No-duplicate-names is preserved by every apply step. -/

theorem nodupDeep_dir (es : FSEntries) : nodupDeep (FSEntry.dir es) = nodupEntries es := rfl

theorem nodupEntries_cons (n : String) (e : FSEntry) (rest : FSEntries) :
    nodupEntries (FSEntries.cons n e rest) =
      (!containsName n rest && nodupDeep e && nodupEntries rest) := rfl

theorem containsName_setEntry (q n : String) (v : FSEntry) (es : FSEntries) :
    containsName q (setEntry n v es) = (containsName q es || (n == q)) := by
  induction es using FSEntries.consInduction with
  | nil => simp [setEntry, containsName]
  | cons m e rest ih =>
    by_cases hm : m = n
    · rw [setEntry, if_pos hm, containsName, containsName]
      subst hm
      cases hq : (m == q) <;> simp [hq]
    · rw [setEntry, if_neg hm, containsName, containsName, ih]
      cases hq : (m == q) <;> simp [hq]

theorem nodupEntries_setEntry (n : String) (v : FSEntry) (es : FSEntries)
    (h : nodupEntries es = true) (hv : nodupDeep v = true) :
    nodupEntries (setEntry n v es) = true := by
  induction es using FSEntries.consInduction with
  | nil => simp [setEntry, nodupEntries_cons, containsName, hv, nodupEntries]
  | cons m e rest ih =>
    rw [nodupEntries_cons, Bool.and_eq_true, Bool.and_eq_true] at h
    obtain ⟨⟨hc, he⟩, hrest⟩ := h
    by_cases hm : m = n
    · rw [setEntry, if_pos hm, nodupEntries_cons]
      simp [hc, hv, hrest]
    · rw [setEntry, if_neg hm, nodupEntries_cons, containsName_setEntry]
      have hnm : (n == m) = false := by
        simp
        exact fun hx => hm hx.symm
      simp only [Bool.not_eq_true'] at hc
      simp [hc, hnm, he, ih hrest]

theorem containsName_removeEntries (q n : String) (es : FSEntries)
    (h : containsName q (removeEntries n es) = true) : containsName q es = true := by
  induction es using FSEntries.consInduction with
  | nil => exact absurd h (by simp [removeEntries, containsName])
  | cons m e rest ih =>
    by_cases hm : m = n
    · rw [removeEntries, if_pos hm] at h
      rw [containsName, Bool.or_eq_true]
      exact Or.inr h
    · rw [removeEntries, if_neg hm, containsName, Bool.or_eq_true] at h
      rw [containsName, Bool.or_eq_true]
      exact h.imp id ih

theorem nodupEntries_removeEntries (n : String) (es : FSEntries)
    (h : nodupEntries es = true) : nodupEntries (removeEntries n es) = true := by
  induction es using FSEntries.consInduction with
  | nil => exact h
  | cons m e rest ih =>
    rw [nodupEntries_cons, Bool.and_eq_true, Bool.and_eq_true] at h
    obtain ⟨⟨hc, he⟩, hrest⟩ := h
    by_cases hm : m = n
    · rw [removeEntries, if_pos hm]
      exact hrest
    · rw [removeEntries, if_neg hm, nodupEntries_cons]
      have hcr : containsName m (removeEntries n rest) = false := by
        cases hx : containsName m (removeEntries n rest) with
        | false => rfl
        | true =>
          rw [containsName_removeEntries m n rest hx] at hc
          exact absurd hc (by simp)
      simp [hcr, he, ih hrest]

theorem nodupDeep_removeAt (d : List String) :
    ∀ e : FSEntry, nodupDeep e = true → nodupDeep (removeAt e d) = true := by
  induction d with
  | nil => intro e h; rw [removeAt_nilPath]; exact h
  | cons n d' ih =>
    intro e h
    cases e with
    | file a => rw [removeAt_file]; exact h
    | dir es =>
      rw [nodupDeep_dir] at h
      cases d' with
      | nil =>
        rw [removeAt_single, nodupDeep_dir]
        exact nodupEntries_removeEntries n es h
      | cons m0 rest =>
        cases hl : lookupEntries n es with
        | none => rw [removeAt_deep_none es n m0 rest hl, nodupDeep_dir]; exact h
        | some x =>
          rw [removeAt_deep_some es n m0 rest x hl, nodupDeep_dir]
          exact nodupEntries_setEntry n (removeAt x (m0 :: rest)) es h
            (ih x (nodupEntries_lookup es h n x hl))

theorem nodupDeep_writeAt (d : List String) :
    ∀ (e e' : FSEntry) (c : String), writeAt e d c = some e' →
      nodupDeep e = true → nodupDeep e' = true := by
  induction d with
  | nil =>
    intro e e' c hw
    rw [writeAt_nilPath] at hw
    exact absurd hw (by simp)
  | cons n d' ih =>
    intro e e' c hw h
    cases e with
    | file a => rw [writeAt_file] at hw; exact absurd hw (by simp)
    | dir es =>
      rw [nodupDeep_dir] at h
      cases d' with
      | nil =>
        cases hl : lookupEntries n es with
        | some x =>
          cases x with
          | dir inner =>
            rw [writeAt_single_dirTarget es n c inner hl] at hw
            exact absurd hw (by simp)
          | file a =>
            rw [writeAt_single_fileTarget es n c a hl] at hw
            rw [← Option.some.inj hw, nodupDeep_dir]
            exact nodupEntries_setEntry n (FSEntry.file c) es h rfl
        | none =>
          rw [writeAt_single_noTarget es n c hl] at hw
          rw [← Option.some.inj hw, nodupDeep_dir]
          exact nodupEntries_setEntry n (FSEntry.file c) es h rfl
      | cons m0 rest =>
        cases hl : lookupEntries n es with
        | some x =>
          cases x with
          | file a =>
            rw [writeAt_deep_file es n m0 c a rest hl] at hw
            exact absurd hw (by simp)
          | dir inner =>
            rw [writeAt_deep_dir es n m0 c rest inner hl] at hw
            cases hw2 : writeAt (FSEntry.dir inner) (m0 :: rest) c with
            | none => rw [hw2] at hw; exact absurd hw (by simp)
            | some c2 =>
              rw [hw2] at hw
              simp at hw
              rw [← hw, nodupDeep_dir]
              exact nodupEntries_setEntry n c2 es h
                (ih (FSEntry.dir inner) c2 c hw2 (nodupEntries_lookup es h n _ hl))
        | none =>
          rw [writeAt_deep_none es n m0 c rest hl] at hw
          cases hw2 : writeAt (FSEntry.dir FSEntries.nil) (m0 :: rest) c with
          | none => rw [hw2] at hw; exact absurd hw (by simp)
          | some c2 =>
            rw [hw2] at hw
            simp at hw
            rw [← hw, nodupDeep_dir]
            exact nodupEntries_setEntry n c2 es h
              (ih (FSEntry.dir FSEntries.nil) c2 c hw2 rfl)

theorem applyChanges_frame (cs : List ApplyChange) :
    ∀ (root t1 : FSEntry) (sel : List String) (k : Nat) (p : List String),
      applyChanges root cs sel = some (t1, k) →
      (∀ c ∈ cs, c.category ∈ sel → c.dest.isPrefixOf p = false) →
      fileAt t1 p = fileAt root p ∧
        (nodupDeep root = true → nodupDeep t1 = true) := by
  induction cs with
  | nil =>
    intro root t1 sel k p h _
    rw [applyChanges] at h
    have h1 : root = t1 := congrArg Prod.fst (Option.some.inj h)
    exact ⟨h1 ▸ rfl, fun hn => h1 ▸ hn⟩
  | cons c cs ih =>
    intro root t1 sel k p h hframe
    have hframe0 : c.category ∈ sel → c.dest.isPrefixOf p = false :=
      hframe c (List.mem_cons_self c cs)
    have hframe' : ∀ c2 ∈ cs, c2.category ∈ sel → c2.dest.isPrefixOf p = false :=
      fun c2 hc2 => hframe c2 (List.mem_cons_of_mem c hc2)
    rw [applyChanges] at h
    by_cases hs : c.category ∈ sel
    · rw [if_pos hs] at h
      cases ht : c.type with
      | delete =>
        rw [ht] at h
        by_cases he : existsAt root c.dest = true
        · rw [if_pos he] at h
          cases hrec : applyChanges (removeAt root c.dest) cs sel with
          | none => rw [hrec] at h; exact absurd h (by simp)
          | some r =>
            rw [hrec] at h
            have ht1 : r.1 = t1 := congrArg Prod.fst (Option.some.inj h)
            have hr := ih (removeAt root c.dest) r.1 sel r.2 p
              (by rw [hrec]) hframe'
            constructor
            · rw [← ht1, hr.1, removeAt_frame c.dest root p (hframe0 hs)]
            · intro hn
              exact ht1 ▸ hr.2 (nodupDeep_removeAt c.dest root hn)
        · rw [if_neg he] at h
          exact ih root t1 sel k p h hframe'
      | add =>
        rw [ht] at h
        cases hw : writeAt root c.dest c.srcContent with
        | none => rw [hw] at h; exact absurd h (by simp)
        | some r =>
          rw [hw] at h
          have hr := ih r t1 sel k p h hframe'
          constructor
          · rw [hr.1, writeAt_frame c.dest root r c.srcContent hw p ?_]
            intro hEq
            rw [hEq] at hframe0
            rw [isPrefixOf_self] at hframe0
            exact absurd (hframe0 hs) (by simp)
          · intro hn
            exact hr.2 (nodupDeep_writeAt c.dest root r c.srcContent hw hn)
      | modify =>
        rw [ht] at h
        cases hw : writeAt root c.dest c.srcContent with
        | none => rw [hw] at h; exact absurd h (by simp)
        | some r =>
          rw [hw] at h
          have hr := ih r t1 sel k p h hframe'
          constructor
          · rw [hr.1, writeAt_frame c.dest root r c.srcContent hw p ?_]
            intro hEq
            rw [hEq] at hframe0
            rw [isPrefixOf_self] at hframe0
            exact absurd (hframe0 hs) (by simp)
          · intro hn
            exact hr.2 (nodupDeep_writeAt c.dest root r c.srcContent hw hn)
    · rw [if_neg hs] at h
      exact ih root t1 sel k p h hframe'

/-- C8: the apply phase writes or deletes only at or below the
destinations of changes whose category was approved — every file at a
path not covered by an approved change keeps its exact content, so
approving only `config` leaves every `services` file byte-identical. -/
theorem C8_selective_application (root : FSEntry) (cs : List ApplyChange)
    (sel : List String) (t' : FSEntry)
    (happ : applyPhase root cs sel = some t') (hroot : nodupDeep root = true)
    (p : List String)
    (hframe : ∀ c ∈ cs, c.category ∈ sel → c.dest.isPrefixOf p = false) :
    fileAt t' p = fileAt root p := by
  rw [applyPhase] at happ
  cases hloop : applyChanges root cs sel with
  | none => rw [hloop] at happ; exact absurd happ (by simp)
  | some r =>
    rw [hloop] at happ
    simp only [Option.map_some'] at happ
    have hfr := applyChanges_frame cs root r.1 sel r.2 p (by rw [hloop]) hframe
    by_cases hk : r.2 > 0
    · rw [if_pos hk] at happ
      rw [← Option.some.inj happ]
      rw [clean_preserves_files p r.1 (hfr.2 hroot)]
      exact hfr.1
    · rw [if_neg hk] at happ
      rw [← Option.some.inj happ]
      exact hfr.1

/-- C8 witness: an approved `config` modification plus an unapproved
`services` change leave a `services` file byte-identical. -/
theorem C8_selective_application_witness :
    fileAt (FSEntry.dir (FSEntries.cons "config"
        (FSEntry.dir (FSEntries.cons "f.txt" (FSEntry.file "new") FSEntries.nil))
        (FSEntries.cons "services"
          (FSEntry.dir (FSEntries.cons "s.txt" (FSEntry.file "svc") FSEntries.nil))
          FSEntries.nil))) ["services", "s.txt"] =
      fileAt (FSEntry.dir (FSEntries.cons "config"
        (FSEntry.dir (FSEntries.cons "f.txt" (FSEntry.file "old") FSEntries.nil))
        (FSEntries.cons "services"
          (FSEntry.dir (FSEntries.cons "s.txt" (FSEntry.file "svc") FSEntries.nil))
          FSEntries.nil))) ["services", "s.txt"] := by
  exact C8_selective_application
    (FSEntry.dir (FSEntries.cons "config"
      (FSEntry.dir (FSEntries.cons "f.txt" (FSEntry.file "old") FSEntries.nil))
      (FSEntries.cons "services"
        (FSEntry.dir (FSEntries.cons "s.txt" (FSEntry.file "svc") FSEntries.nil))
        FSEntries.nil)))
    [⟨ChangeType.modify, ["config", "f.txt"], "new", "config"⟩,
     ⟨ChangeType.modify, ["services", "s.txt"], "evil", "services"⟩]
    ["config"]
    (FSEntry.dir (FSEntries.cons "config"
      (FSEntry.dir (FSEntries.cons "f.txt" (FSEntry.file "new") FSEntries.nil))
      (FSEntries.cons "services"
        (FSEntry.dir (FSEntries.cons "s.txt" (FSEntry.file "svc") FSEntries.nil))
        FSEntries.nil)))
    (by decide) (by decide) ["services", "s.txt"] (by decide)

/-! Per-path characterisation of the collectors (C2/C10). -/

theorem changesAt_append (l1 l2 : List FileChange) (p : List String) :
    changesAt (l1 ++ l2) p = changesAt l1 p ++ changesAt l2 p := by
  simp [changesAt]

theorem changesAt_nil (p : List String) : changesAt [] p = [] := rfl

theorem changesAt_single_eq (r : FileChange) (p : List String) (h : r.relativePath = p) :
    changesAt [r] p = [r] := by
  simp [changesAt, h]

theorem changesAt_eq_nil (rs : List FileChange) (p : List String)
    (h : ∀ r ∈ rs, r.relativePath ≠ p) : changesAt rs p = [] := by
  induction rs with
  | nil => rfl
  | cons r rs ih =>
    have h1 := h r (List.mem_cons_self r rs)
    have h2 : ∀ x ∈ rs, x.relativePath ≠ p := fun x hx => h x (List.mem_cons_of_mem r hx)
    have h3 := ih h2
    simp [changesAt, h1] at h3 ⊢
    exact h3

theorem appendCancelLeft (base : List String) :
    ∀ l1 l2 : List String, base ++ l1 = base ++ l2 → l1 = l2 := by
  induction base with
  | nil =>
    intro l1 l2 h
    simpa using h
  | cons b bs ih =>
    intro l1 l2 h
    rw [List.cons_append, List.cons_append] at h
    injection h with _ h2
    exact ih l1 l2 h2

theorem entryAtOpt_nil (d : Option FSEntry) : entryAtOpt d [] = d := by
  cases d <;> rfl

theorem entryAtOpt_cons (dest : Option FSEntry) (n : String) (p : List String) :
    entryAtOpt dest (n :: p) = entryAtOpt (lookupIn dest n) p := by
  cases dest with
  | none => rfl
  | some e => cases e <;> rfl

theorem expectedChange_none (dest : Option FSEntry) (category : String) (base p : List String)
    (c : String) (h : entryAtOpt dest p = none) :
    expectedChange dest category base p c = [⟨ChangeType.add, base ++ p, category⟩] := by
  unfold expectedChange
  rw [h]

theorem expectedChange_file (dest : Option FSEntry) (category : String) (base p : List String)
    (c d : String) (h : entryAtOpt dest p = some (FSEntry.file d)) :
    expectedChange dest category base p c =
      if c == d then [] else [⟨ChangeType.modify, base ++ p, category⟩] := by
  unfold expectedChange
  rw [h]

theorem expectedChange_dir (dest : Option FSEntry) (category : String) (base p : List String)
    (c : String) (ds : FSEntries) (h : entryAtOpt dest p = some (FSEntry.dir ds)) :
    expectedChange dest category base p c = [⟨ChangeType.modify, base ++ p, category⟩] := by
  unfold expectedChange
  rw [h]

theorem expectedChange_cons (dest : Option FSEntry) (n : String) (p : List String)
    (category : String) (base : List String) (c : String) :
    expectedChange (lookupIn dest n) category (base ++ [n]) p c =
      expectedChange dest category base (n :: p) c := by
  have hp : (base ++ [n]) ++ p = base ++ n :: p := by simp
  unfold expectedChange
  rw [entryAtOpt_cons, hp]

theorem collectFromTemplate_cons_file (n : String) (c : String) (rest : FSEntries)
    (dest : Option FSEntry) (category : String) (base : List String) (chk : Bool) :
    collectFromTemplate (FSEntries.cons n (FSEntry.file c) rest) dest category base chk =
      (if (lookupIn dest n).isSome = false then
         [⟨ChangeType.add, base ++ [n], category⟩]
       else if compareFiles (some (FSEntry.file c)) (lookupIn dest n) = false then
         [⟨ChangeType.modify, base ++ [n], category⟩]
       else []) ++
      collectFromTemplate rest dest category base chk := rfl

theorem collectFromTemplate_cons_dir (n : String) (inner : FSEntries) (rest : FSEntries)
    (dest : Option FSEntry) (category : String) (base : List String) (chk : Bool) :
    collectFromTemplate (FSEntries.cons n (FSEntry.dir inner) rest) dest category base chk =
      collectEntryChanges (FSEntry.dir inner) (lookupIn dest n) category (base ++ [n]) chk ++
      collectFromTemplate rest dest category base chk := rfl

theorem collectDeleted_shape :
    (∀ e : FSEntry, ∀ category base r,
      r ∈ collectDeletedFiles e category base → ∃ t, r.relativePath = base ++ t) ∧
    (∀ ds : FSEntries, ∀ category base r,
      r ∈ collectDeletedEntries ds category base →
        ∃ m t, r.relativePath = base ++ m :: t) := by
  refine FSEntry.mutualInduction ?_ ?_ ?_ ?_
  · intro c category base r hr
    rw [collectDeletedFiles_file] at hr
    exact absurd hr (List.not_mem_nil r)
  · intro es ih category base r hr
    rw [collectDeletedFiles_dir] at hr
    obtain ⟨m, t, h⟩ := ih category base r hr
    exact ⟨m :: t, h⟩
  · intro category base r hr
    rw [collectDeletedEntries_nil] at hr
    exact absurd hr (List.not_mem_nil r)
  · intro n e rest ihe ihr category base r hr
    rw [collectDeletedEntries_cons] at hr
    rcases List.mem_append.1 hr with hr | hr
    · by_cases hx : shouldExcludeFromDeletion n (base ++ [n]) = true
      · rw [if_pos hx] at hr
        exact absurd hr (List.not_mem_nil r)
      · rw [if_neg hx] at hr
        cases e with
        | dir inner =>
          obtain ⟨t, h⟩ := ihe category (base ++ [n]) r hr
          exact ⟨n, t, by simpa using h⟩
        | file c =>
          rw [List.mem_singleton.1 hr]
          exact ⟨n, [], rfl⟩
    · exact ihr category base r hr

theorem collectDeletions_shape (ds : FSEntries) :
    ∀ src category base r, r ∈ collectDeletions src ds category base →
      ∃ m t, r.relativePath = base ++ m :: t ∧ lookupIn src m = none := by
  induction ds using FSEntries.consInduction with
  | nil =>
    intro src category base r hr
    rw [collectDeletions_nil] at hr
    exact absurd hr (List.not_mem_nil r)
  | cons n e rest ih =>
    intro src category base r hr
    rw [collectDeletions_cons] at hr
    rcases List.mem_append.1 hr with hr | hr
    · by_cases hx : shouldExcludeFromDeletion n (base ++ [n]) = true
      · rw [if_pos hx] at hr
        exact absurd hr (List.not_mem_nil r)
      · rw [if_neg hx] at hr
        by_cases hs : (lookupIn src n).isSome = true
        · rw [if_pos hs] at hr
          exact absurd hr (List.not_mem_nil r)
        · rw [if_neg hs] at hr
          have hnone : lookupIn src n = none := by
            cases hl : lookupIn src n with
            | none => rfl
            | some x => rw [hl] at hs; exact absurd rfl hs
          cases e with
          | dir inner =>
            obtain ⟨t, h⟩ :=
              collectDeleted_shape.1 (FSEntry.dir inner) category (base ++ [n]) r hr
            exact ⟨n, t, by simpa using h, hnone⟩
          | file c =>
            rw [List.mem_singleton.1 hr]
            exact ⟨n, [], rfl, hnone⟩
    · exact ih src category base r hr

theorem collectTemplate_shape :
    (∀ e : FSEntry, ∀ dest category base chk r,
      r ∈ collectEntryChanges e dest category base chk →
        ∃ m t, r.relativePath = base ++ m :: t) ∧
    (∀ es : FSEntries, ∀ dest category base chk r,
      r ∈ collectFromTemplate es dest category base chk →
        ∃ m t, r.relativePath = base ++ m :: t ∧ containsName m es = true) := by
  refine FSEntry.mutualInduction ?_ ?_ ?_ ?_
  · intro c dest category base chk r hr
    rw [collectEntryChanges_eq] at hr
    rcases List.mem_append.1 hr with hr | hr
    · exact absurd hr (List.not_mem_nil r)
    · obtain ⟨ds, _hd, _hk, hr⟩ := mem_deletionPart _ dest category base chk hr
      obtain ⟨m, t, h, _⟩ := collectDeletions_shape ds _ category base r hr
      exact ⟨m, t, h⟩
  · intro es ih dest category base chk r hr
    rw [collectEntryChanges_eq] at hr
    rcases List.mem_append.1 hr with hr | hr
    · obtain ⟨m, t, h, _⟩ := ih dest category base chk r hr
      exact ⟨m, t, h⟩
    · obtain ⟨ds, _hd, _hk, hr⟩ := mem_deletionPart _ dest category base chk hr
      obtain ⟨m, t, h, _⟩ := collectDeletions_shape ds _ category base r hr
      exact ⟨m, t, h⟩
  · intro dest category base chk r hr
    rw [collectFromTemplate_nil] at hr
    exact absurd hr (List.not_mem_nil r)
  · intro n e rest ihe ihr dest category base chk r hr
    rw [collectFromTemplate_cons] at hr
    rcases List.mem_append.1 hr with hr | hr
    · cases e with
      | dir inner =>
        obtain ⟨m, t, h⟩ := ihe (lookupIn dest n) category (base ++ [n]) chk r hr
        refine ⟨n, m :: t, by simpa using h, ?_⟩
        simp [containsName]
      | file c =>
        by_cases h1 : (lookupIn dest n).isSome = false
        · rw [if_pos h1] at hr
          rw [List.mem_singleton.1 hr]
          exact ⟨n, [], rfl, by simp [containsName]⟩
        · rw [if_neg h1] at hr
          by_cases h2 : compareFiles (some (FSEntry.file c)) (lookupIn dest n) = false
          · rw [if_pos h2] at hr
            rw [List.mem_singleton.1 hr]
            exact ⟨n, [], rfl, by simp [containsName]⟩
          · rw [if_neg h2] at hr
            exact absurd hr (List.not_mem_nil r)
    · obtain ⟨m, t, h, hcm⟩ := ihr dest category base chk r hr
      refine ⟨m, t, h, ?_⟩
      rw [containsName]
      simp [hcm]

theorem collect_changesAt_char :
    (∀ e : FSEntry, ∀ dest category base chk p c,
      nodupDeep e = true → p ≠ [] → entryAt e p = some (FSEntry.file c) →
      changesAt (collectEntryChanges e dest category base chk) (base ++ p) =
        expectedChange dest category base p c) ∧
    (∀ es : FSEntries, ∀ dest category base chk n p c,
      nodupEntries es = true →
      entryAt (FSEntry.dir es) (n :: p) = some (FSEntry.file c) →
      changesAt (collectFromTemplate es dest category base chk) (base ++ n :: p) =
        expectedChange dest category base (n :: p) c) := by
  refine FSEntry.mutualInduction ?_ ?_ ?_ ?_
  · intro c0 dest category base chk p c _hnd hp hat
    cases p with
    | nil => exact absurd rfl hp
    | cons q p' =>
      rw [entryAt_file_cons] at hat
      exact absurd hat (by simp)
  · intro es ih dest category base chk p c hnd hp hat
    cases p with
    | nil => exact absurd rfl hp
    | cons n p' =>
      have hlook : lookupEntries n es ≠ none := by
        intro hln
        rw [entryAt_dir_cons, hln] at hat
        simp at hat
      have hdel : changesAt (deletionPart (some (FSEntry.dir es)) dest category base chk)
          (base ++ n :: p') = [] := by
        apply changesAt_eq_nil
        intro r hr
        obtain ⟨ds, _hd, _hk, hr⟩ := mem_deletionPart _ dest category base chk hr
        obtain ⟨m, t, h, hnone⟩ := collectDeletions_shape ds _ category base r hr
        rw [h]
        intro hEq
        have h2 := appendCancelLeft base (m :: t) (n :: p') hEq
        injection h2 with h3 _h4
        have hm : lookupEntries m es = none := by simpa [lookupIn] using hnone
        rw [h3] at hm
        exact hlook hm
      rw [collectEntryChanges_dir, changesAt_append,
        ih dest category base chk n p' c hnd hat, hdel, List.append_nil]
  · intro dest category base chk n p c _hnd hat
    rw [entryAt_dir_cons] at hat
    simp [lookupEntries] at hat
  · intro n0 e rest ihe ihr dest category base chk n p c hnd hat
    rw [nodupEntries, Bool.and_eq_true, Bool.and_eq_true] at hnd
    obtain ⟨⟨hc, he⟩, hrest⟩ := hnd
    by_cases hn : n0 = n
    · subst hn
      have hat' : entryAt e p = some (FSEntry.file c) := by
        rw [entryAt_dir_cons, lookupEntries, if_pos rfl] at hat
        exact hat
      have hrest0 : changesAt (collectFromTemplate rest dest category base chk)
          (base ++ n0 :: p) = [] := by
        apply changesAt_eq_nil
        intro r hr
        obtain ⟨m, t, h, hcm⟩ := collectTemplate_shape.2 rest dest category base chk r hr
        rw [h]
        intro hEq
        have h2 := appendCancelLeft base (m :: t) (n0 :: p) hEq
        injection h2 with h3 _h4
        rw [h3] at hcm
        rw [hcm] at hc
        exact absurd hc (by decide)
      cases e with
      | file c0 =>
        cases p with
        | cons q p'' =>
          rw [entryAt_file_cons] at hat'
          simp at hat'
        | nil =>
          rw [entryAt_nilPath] at hat'
          have hfc := Option.some.inj hat'
          injection hfc with hc0
          subst hc0
          rw [collectFromTemplate_cons_file, changesAt_append, hrest0, List.append_nil]
          have hopt : entryAtOpt dest [n0] = lookupIn dest n0 := by
            rw [entryAtOpt_cons, entryAtOpt_nil]
          cases hld : lookupIn dest n0 with
          | none =>
            rw [if_pos (show (none : Option FSEntry).isSome = false from rfl),
              changesAt_single_eq ⟨ChangeType.add, base ++ [n0], category⟩ (base ++ [n0]) rfl,
              expectedChange_none dest category base [n0] c0 (by rw [hopt, hld])]
          | some x =>
            rw [if_neg (by simp)]
            cases x with
            | dir ds =>
              rw [if_pos (show compareFiles (some (FSEntry.file c0)) (some (FSEntry.dir ds))
                  = false from rfl),
                changesAt_single_eq ⟨ChangeType.modify, base ++ [n0], category⟩
                  (base ++ [n0]) rfl,
                expectedChange_dir dest category base [n0] c0 ds (by rw [hopt, hld])]
            | file d =>
              rw [expectedChange_file dest category base [n0] c0 d (by rw [hopt, hld])]
              by_cases hcd : (c0 == d) = true
              · have h2 : ¬(compareFiles (some (FSEntry.file c0)) (some (FSEntry.file d))
                    = false) := by
                  simp [compareFiles, hcd]
                rw [if_neg h2, changesAt_nil, if_pos hcd]
              · have hcd' : (c0 == d) = false := by
                  cases hx : (c0 == d) with
                  | false => rfl
                  | true => exact absurd hx hcd
                have h2 : compareFiles (some (FSEntry.file c0)) (some (FSEntry.file d))
                    = false := by
                  simp [compareFiles, hcd']
                rw [if_pos h2,
                  changesAt_single_eq ⟨ChangeType.modify, base ++ [n0], category⟩
                    (base ++ [n0]) rfl,
                  if_neg (by simp [hcd'])]
      | dir inner =>
        cases p with
        | nil =>
          rw [entryAt_nilPath] at hat'
          exact FSEntry.noConfusion (Option.some.inj hat')
        | cons q p'' =>
          have hmain := ihe (lookupIn dest n0) category (base ++ [n0]) chk (q :: p'') c he
            (List.cons_ne_nil q p'') hat'
          rw [collectFromTemplate_cons_dir, changesAt_append, hrest0, List.append_nil]
          have hpath : (base ++ n0 :: q :: p'' : List String) = (base ++ [n0]) ++ q :: p'' := by
            simp
          rw [hpath, hmain]
          exact expectedChange_cons dest n0 (q :: p'') category base c
    · have hat' : entryAt (FSEntry.dir rest) (n :: p) = some (FSEntry.file c) := by
        rw [entryAt_dir_cons, lookupEntries, if_neg hn] at hat
        rw [entryAt_dir_cons]
        exact hat
      have hmain := ihr dest category base chk n p c hrest hat'
      cases e with
      | file c0 =>
        rw [collectFromTemplate_cons_file, changesAt_append, hmain]
        have hbr : changesAt
            (if (lookupIn dest n0).isSome = false then
               [(⟨ChangeType.add, base ++ [n0], category⟩ : FileChange)]
             else if compareFiles (some (FSEntry.file c0)) (lookupIn dest n0) = false then
               [(⟨ChangeType.modify, base ++ [n0], category⟩ : FileChange)]
             else []) (base ++ n :: p) = [] := by
          apply changesAt_eq_nil
          intro r hr
          have hpath : r.relativePath = base ++ [n0] := by
            by_cases h1 : (lookupIn dest n0).isSome = false
            · rw [if_pos h1] at hr
              rw [List.mem_singleton.1 hr]
            · rw [if_neg h1] at hr
              by_cases h2 : compareFiles (some (FSEntry.file c0)) (lookupIn dest n0) = false
              · rw [if_pos h2] at hr
                rw [List.mem_singleton.1 hr]
              · rw [if_neg h2] at hr
                exact absurd hr (List.not_mem_nil r)
          rw [hpath]
          intro hEq
          have h2 := appendCancelLeft base [n0] (n :: p) hEq
          injection h2 with h3 _h4
          exact hn h3
        rw [hbr, List.nil_append]
      | dir inner =>
        rw [collectFromTemplate_cons_dir, changesAt_append, hmain]
        have hbr : changesAt (collectEntryChanges (FSEntry.dir inner) (lookupIn dest n0)
            category (base ++ [n0]) chk) (base ++ n :: p) = [] := by
          apply changesAt_eq_nil
          intro r hr
          obtain ⟨m, t, h⟩ := collectTemplate_shape.1 (FSEntry.dir inner)
            (lookupIn dest n0) category (base ++ [n0]) chk r hr
          rw [h]
          intro hEq
          have hEq2 : base ++ n0 :: m :: t = base ++ n :: p := by simpa using hEq
          have h2 := appendCancelLeft base (n0 :: m :: t) (n :: p) hEq2
          injection h2 with h3 _h4
          exact hn h3
        rw [hbr, List.nil_append]

/-- C2: for a file present in the template tree at relative path `p`
(inside a category walked without duplicate names), the collection emits
exactly one record at `p` — an Add when nothing exists at the
corresponding project path, a Modify when something exists there with
different content (or a directory), and no record at all when an
identical file already sits there; in particular never an Add and a
Modify together. -/
theorem C2_template_walk_exactly_one (src dest : Option FSEntry) (category : String)
    (base p : List String) (chk : Bool) (c : String)
    (hnd : nodupOpt src = true) (hp : p ≠ [])
    (hsrc : entryAtOpt src p = some (FSEntry.file c)) :
    changesAt (collectFileChanges src dest category base chk) (base ++ p) =
      expectedChange dest category base p c := by
  cases src with
  | none => simp [entryAtOpt] at hsrc
  | some e =>
    rw [collectFileChanges_some]
    exact collect_changesAt_char.1 e dest category base chk p c hnd hp hsrc

/-- C2 witness: a template file whose project counterpart differs yields
the single Modify record. -/
theorem C2_template_walk_exactly_one_witness :
    changesAt (collectFileChanges
        (some (FSEntry.dir (FSEntries.cons "a.txt" (FSEntry.file "x") FSEntries.nil)))
        (some (FSEntry.dir (FSEntries.cons "a.txt" (FSEntry.file "y") FSEntries.nil)))
        "config" ["config"] true) ["config", "a.txt"] =
      [⟨ChangeType.modify, ["config", "a.txt"], "config"⟩] := by
  have h := C2_template_walk_exactly_one
    (some (FSEntry.dir (FSEntries.cons "a.txt" (FSEntry.file "x") FSEntries.nil)))
    (some (FSEntry.dir (FSEntries.cons "a.txt" (FSEntry.file "y") FSEntries.nil)))
    "config" ["config"] ["a.txt"] true "x" (by decide) (by decide) (by decide)
  have h2 : expectedChange
      (some (FSEntry.dir (FSEntries.cons "a.txt" (FSEntry.file "y") FSEntries.nil)))
      "config" ["config"] ["a.txt"] "x" =
      [⟨ChangeType.modify, ["config", "a.txt"], "config"⟩] := by decide
  rw [h2] at h
  exact h

/-- C10: when the template holds a file at a relative path where the
project holds a directory, the collection emits exactly one record at
that path and it is a Modify — never an Add, never a Delete-plus-Add
pair (`compareFiles` returns false whenever either side is a directory,
and the destination exists, so the Add branch is not taken). -/
theorem C10_file_over_directory_modify (src dest : Option FSEntry) (category : String)
    (base p : List String) (chk : Bool) (c : String) (ds : FSEntries)
    (hnd : nodupOpt src = true) (hp : p ≠ [])
    (hsrc : entryAtOpt src p = some (FSEntry.file c))
    (hdest : entryAtOpt dest p = some (FSEntry.dir ds)) :
    changesAt (collectFileChanges src dest category base chk) (base ++ p) =
      [⟨ChangeType.modify, base ++ p, category⟩] := by
  cases src with
  | none => simp [entryAtOpt] at hsrc
  | some e =>
    rw [collectFileChanges_some]
    rw [collect_changesAt_char.1 e dest category base chk p c hnd hp hsrc]
    exact expectedChange_dir dest category base p c ds hdest

/-- C10 witness: a template file sitting where the project has a
directory produces the single Modify record. -/
theorem C10_file_over_directory_modify_witness :
    changesAt (collectFileChanges
        (some (FSEntry.dir (FSEntries.cons "conf" (FSEntry.file "new") FSEntries.nil)))
        (some (FSEntry.dir (FSEntries.cons "conf"
          (FSEntry.dir (FSEntries.cons "inner.txt" (FSEntry.file "z") FSEntries.nil))
          FSEntries.nil)))
        "config" [] true) ["conf"] =
      [⟨ChangeType.modify, ["conf"], "config"⟩] := by
  exact C10_file_over_directory_modify
    (some (FSEntry.dir (FSEntries.cons "conf" (FSEntry.file "new") FSEntries.nil)))
    (some (FSEntry.dir (FSEntries.cons "conf"
      (FSEntry.dir (FSEntries.cons "inner.txt" (FSEntry.file "z") FSEntries.nil))
      FSEntries.nil)))
    "config" [] ["conf"] true "new"
    (FSEntries.cons "inner.txt" (FSEntry.file "z") FSEntries.nil)
    (by decide) (by decide) (by decide) (by decide)

end Nexu
